import Mathlib

/-! # RadixTree: a verification development

Shallow embedding of `RadixTreeNode.hpp` and `RadixTree.hpp` (class templates
`RadixTreeNode<T>` and `RadixTree<T>`), followed by theorems about
`UpsertString` and `SearchByKey`.

Modelling conventions.
* `std::string` and `std::deque<char>` are `List Char`.
* `T` is any type with a default value (`T{}` is `default`).
* A `shared_ptr` to a node is the node itself: `UpsertString` never leaves a
  node reachable from two parents (a split copies `search_path_` into the new
  node and clears it in the old one), so updating a node in place is
  rebuilding the path from the root down to it.
* A thrown `std::runtime_error` is an `Except.error` carrying the thrown
  message; a method that mutates returns the outcome together with the tree
  after the call.
-/

namespace RadixTree

/-- The node of `RadixTreeNode.hpp`: `search_path_` (a vector of
`(char, NodePtr)` pairs), `path_content_`, `is_stop_`, `value_`. -/
inductive RadixTreeNode (T : Type) where
  | mk (search_path_ : List (Char × RadixTreeNode T)) (path_content_ : List Char)
      (is_stop_ : Bool) (value_ : T) : RadixTreeNode T

namespace RadixTreeNode

variable {T : Type}

/-- Field `search_path_`. -/
def search_path_ : RadixTreeNode T → List (Char × RadixTreeNode T)
  | mk sp _ _ _ => sp

/-- Field `path_content_`. -/
def path_content_ : RadixTreeNode T → List Char
  | mk _ pc _ _ => pc

/-- Field `is_stop_`. -/
def is_stop_ : RadixTreeNode T → Bool
  | mk _ _ st _ => st

/-- Field `value_`. -/
def value_ : RadixTreeNode T → T
  | mk _ _ _ v => v

end RadixTreeNode

open RadixTreeNode

/-- What the methods of `RadixTree` can end with other than a normal return.
The first four are the messages of the `std::runtime_error`s thrown in
`RadixTree.hpp`; the last one is not an exception. -/
inductive RtError where
  /-- Message `"Invalid key"` (UpsertString, line 61). -/
  | invalidKey
  /-- Message `"No such key"`, the local `err_msg` of SearchByKey (lines 247 and 263). -/
  | noSuchKey
  /-- Message `"No such key!"` (SearchByKey, lines 299, 320, 325). -/
  | noSuchKeyBang
  /-- Message `"This tree has a bad initialization, check your insertion!"` (line 294). -/
  | badInitialization
  /-- Dereference of a null `root_` (`root_->search_path_`, line 252): undefined
  behaviour, nothing is thrown. -/
  | nullDereference
  deriving DecidableEq

/-- The three error kinds the specification distinguishes. -/
inductive ErrorKind where
  | InvalidKeyError
  | KeyNotFoundError
  | CorruptTreeError
  deriving DecidableEq

/-- The error kind of the specification that a thrown message stands for: both
"No such key" messages are the key-not-found error; the null dereference is no
error kind. -/
def RtError.kind : RtError → Option ErrorKind
  | .invalidKey => some .InvalidKeyError
  | .noSuchKey => some .KeyNotFoundError
  | .noSuchKeyBang => some .KeyNotFoundError
  | .badInitialization => some .CorruptTreeError
  | .nullDereference => none

/-- The class `RadixTree<T>`: its only data member is `root_`, null until the
first successful `UpsertString`. -/
structure Tree (T : Type) where
  root_ : Option (RadixTreeNode T)

/-- The default-constructed tree (`root_` is null). -/
def Tree.empty {T : Type} : Tree T := ⟨none⟩

variable {T : Type}

/-- The inner `while` loop shared by `UpsertString` (lines 114-125) and
`SearchByKey` (lines 273-284): pop the front of `key_queue` and advance `iter`
while both are left and the symbols agree. The result is
`(path_content_[begin, iter), key_queue, path_content_[iter, end))`
when the loop stops: the position of `iter` is given by the two parts it cuts
`path_content_` into. -/
def matchLoop : List Char → List Char → List Char × List Char × List Char
  | k :: ks, x :: xs =>
    if k = x then
      let r := matchLoop ks xs
      (x :: r.1, r.2.1, r.2.2)
    else ([], k :: ks, x :: xs)
  | ks, xs => ([], ks, xs)

/-- A freshly allocated node made a stop for the content `content` and the
value `value` (lines 97-102, 177-180, 193-195). -/
def newLeaf (content : List Char) (value : T) : RadixTreeNode T :=
  .mk [] content true value

mutual
/-- One round of the outer `while` loop of `UpsertString` (lines 108-214) at
`curr_node`, with `key` the current `key_queue`; the result is the node after
the call. -/
def upsertNode [Inhabited T] : RadixTreeNode T → List Char → T → RadixTreeNode T
  | .mk sp pc st val, key, value =>
    match matchLoop key pc with
    | (_, [], []) =>
      -- both content and key are all consumed: update value
      .mk sp pc true value
    | (pre, [], x :: xs) =>
      -- content remains, current key is a common prefix: split
      .mk [(x, .mk sp (x :: xs) st val)] pre true value
    | (_, c :: cs, []) =>
      -- key remains, keep searching the next
      .mk (upsertPath sp c cs value) pc st val
    | (pre, c :: cs, x :: xs) =>
      -- key and content differ in the middle
      .mk [(c, newLeaf (c :: cs) value), (x, .mk sp (x :: xs) st val)] pre false default
/-- The lookup in a `search_path_` for the front `c` of the key queue `c :: cs`
(lines 85-93 for the root, 164-173 below it): the first pair whose character is
`c` is the next `curr_node`; without one a new stop node holding the whole
queue is pushed back (lines 94-105, 175-184). -/
def upsertPath [Inhabited T] :
    List (Char × RadixTreeNode T) → Char → List Char → T → List (Char × RadixTreeNode T)
  | [], c, cs, value => [(c, newLeaf (c :: cs) value)]
  | (e, n) :: rest, c, cs, value =>
    if e = c then (e, upsertNode n (c :: cs) value) :: rest
    else (e, n) :: upsertPath rest c cs value
end

/-- `RadixTree::UpsertString` (lines 57-216): the outcome and the tree after the call. -/
def UpsertString [Inhabited T] (t : Tree T) (key : List Char) (value : T) :
    Except RtError Unit × Tree T :=
  match key with
  | [] => (.error .invalidKey, t)
  | c :: cs =>
    match t.root_ with
    | none =>
      -- first init
      (.ok (), ⟨some (.mk [(c, newLeaf (c :: cs) value)] [] false default)⟩)
    | some (.mk sp pc st val) =>
      (.ok (), ⟨some (.mk (upsertPath sp c cs value) pc st val)⟩)

mutual
/-- One round of the `while` loop of `SearchByKey` (lines 267-327) at
`curr_node`, with `key` the current `key_queue`. -/
def searchNode : RadixTreeNode T → List Char → Except RtError T
  | .mk sp pc st val, key =>
    match matchLoop key pc with
    | (_, [], []) => if st = true then .ok val else .error .badInitialization
    | (_, [], _ :: _) => .error .noSuchKeyBang
    | (_, c :: cs, []) => searchPath sp c cs
    | (_, _ :: _, _ :: _) => .error .noSuchKeyBang
/-- The lookup in a `search_path_` for the front `c` of the key queue `c :: cs`
(lines 305-321): the first pair whose character is `c` is the next
`curr_node`; without one the key is missing. -/
def searchPath : List (Char × RadixTreeNode T) → Char → List Char → Except RtError T
  | [], _, _ => .error .noSuchKeyBang
  | (e, n) :: rest, c, cs =>
    if e = c then searchNode n (c :: cs) else searchPath rest c cs
end

/-- The first step search of `SearchByKey` (lines 250-264): the first pair of
the root whose character is `key[0]`; `none` when `curr_node` is still `root_`
after the loop. -/
def firstStep : List (Char × RadixTreeNode T) → Char → Option (RadixTreeNode T)
  | [], _ => none
  | (e, n) :: rest, c => if e = c then some n else firstStep rest c

/-- `RadixTree::SearchByKey` (lines 241-329). -/
def SearchByKey (t : Tree T) (key : List Char) : Except RtError T :=
  match key with
  | [] => .error .noSuchKey
  | c :: cs =>
    match t.root_ with
    | none => .error .nullDereference
    | some root =>
      match firstStep root.search_path_ c with
      | none => .error .noSuchKey
      | some n => searchNode n (c :: cs)

/-- The tree after a sequence of `UpsertString` calls, made in list order. -/
def upsertAll [Inhabited T] (t : Tree T) : List (List Char × T) → Tree T
  | [] => t
  | (k, v) :: ops => upsertAll (UpsertString t k v).2 ops

mutual
/-- All the nodes of the subtree under a node, the node itself first. -/
def RadixTreeNode.nodes : RadixTreeNode T → List (RadixTreeNode T)
  | .mk sp pc st val => .mk sp pc st val :: pathNodes sp
/-- All the nodes of the subtrees a `search_path_` points to. -/
def pathNodes : List (Char × RadixTreeNode T) → List (RadixTreeNode T)
  | [] => []
  | (_, n) :: rest => n.nodes ++ pathNodes rest
end

/-- All the nodes of a tree, the root included; none when `root_` is null. -/
def Tree.nodes (t : Tree T) : List (RadixTreeNode T) :=
  match t.root_ with
  | none => []
  | some root => root.nodes

/-- The number of nodes of the tree with `is_stop_ = true`. -/
def Tree.stopCount (t : Tree T) : Nat :=
  t.nodes.countP (fun n => n.is_stop_)

/-- The edge symbols of a node: the characters of its `search_path_`, in order. -/
def RadixTreeNode.edges (n : RadixTreeNode T) : List Char :=
  n.search_path_.map Prod.fst

/-- The nodes of a tree other than the root. -/
def Tree.inner (t : Tree T) : List (RadixTreeNode T) :=
  match t.root_ with
  | none => []
  | some root => pathNodes root.search_path_

mutual
/-- The nodes of the subtree under a node, the node itself first, each given as
the concatenation of `path_content_` along the path down to it (continuing
`acc`, the concatenation down to the parent), its `is_stop_` and its `value_`. -/
def RadixTreeNode.entries : RadixTreeNode T → List Char → List (List Char × Bool × T)
  | .mk sp pc st val, acc => (acc ++ pc, st, val) :: pathEntries sp (acc ++ pc)
/-- The entries of the subtrees a `search_path_` points to. -/
def pathEntries : List (Char × RadixTreeNode T) → List Char → List (List Char × Bool × T)
  | [], _ => []
  | (_, n) :: rest, acc => n.entries acc ++ pathEntries rest acc
end

/-- The entries of all the nodes of a tree, the root first. -/
def Tree.entries (t : Tree T) : List (List Char × Bool × T) :=
  match t.root_ with
  | none => []
  | some root => root.entries []

/-- The root-to-node concatenations of the nodes with `is_stop_ = true`. -/
def Tree.keys (t : Tree T) : List (List Char) :=
  (t.entries.filter (fun e => e.2.1)).map (fun e => e.1)

mutual
/-- A node without its values: the tree of `search_path_` characters, in order,
with every `path_content_` and `is_stop_`. -/
def RadixTreeNode.shape : RadixTreeNode T → RadixTreeNode Unit
  | .mk sp pc st _ => .mk (pathShape sp) pc st ()
/-- A `search_path_` without the values of the nodes under it. -/
def pathShape : List (Char × RadixTreeNode T) → List (Char × RadixTreeNode Unit)
  | [] => []
  | (e, n) :: rest => (e, n.shape) :: pathShape rest
end

/-- A tree without its values. -/
def Tree.shape (t : Tree T) : Option (RadixTreeNode Unit) :=
  match t.root_ with
  | none => none
  | some root => some root.shape

/-- The longest common prefix of two symbol sequences, as the glossary of the
specification defines it: the longest matching run starting at position 0. -/
def lcp : List Char → List Char → List Char
  | a :: as, b :: bs => if a = b then a :: lcp as bs else []
  | _, _ => []

/-! ## The inner loop -/

theorem matchLoop_nil_left (pc : List Char) : matchLoop [] pc = ([], [], pc) := by
  cases pc <;> rfl

theorem matchLoop_nil_right (key : List Char) : matchLoop key [] = ([], key, []) := by
  cases key <;> rfl

/-- The part of `path_content_` before `iter` is also what was popped from the key. -/
theorem matchLoop_key (key pc : List Char) :
    (matchLoop key pc).1 ++ (matchLoop key pc).2.1 = key := by
  induction key generalizing pc with
  | nil => simp [matchLoop_nil_left]
  | cons k ks ih =>
    cases pc with
    | nil => simp [matchLoop_nil_right]
    | cons x xs =>
      by_cases h : k = x
      · simp [matchLoop, h, ih xs]
      · simp [matchLoop, h]

theorem matchLoop_content (key pc : List Char) :
    (matchLoop key pc).1 ++ (matchLoop key pc).2.2 = pc := by
  induction key generalizing pc with
  | nil => simp [matchLoop_nil_left]
  | cons k ks ih =>
    cases pc with
    | nil => simp [matchLoop_nil_right]
    | cons x xs =>
      by_cases h : k = x
      · simp [matchLoop, h, ih xs]
      · simp [matchLoop, h]

/-- When the loop stops with both sides left, the two fronts differ. -/
theorem matchLoop_diverge (key pc : List Char) (c x : Char) (cs xs : List Char)
    (hk : (matchLoop key pc).2.1 = c :: cs) (hx : (matchLoop key pc).2.2 = x :: xs) : c ≠ x := by
  induction key generalizing pc with
  | nil => simp [matchLoop_nil_left] at hk
  | cons k ks ih =>
    cases pc with
    | nil => simp [matchLoop_nil_right] at hx
    | cons y ys =>
      by_cases h : k = y
      · simp [matchLoop, h] at hk hx
        exact ih ys hk hx
      · simp [matchLoop, h] at hk hx
        rw [← hk.1, ← hx.1]
        exact h

/-- A common front part of key and content is skipped by the loop. -/
theorem matchLoop_append_left (pre r q : List Char) :
    matchLoop (pre ++ r) (pre ++ q)
      = (pre ++ (matchLoop r q).1, (matchLoop r q).2.1, (matchLoop r q).2.2) := by
  induction pre with
  | nil => simp
  | cons p ps ih => simp [matchLoop, ih]

theorem prefix_trichotomy (p k : List Char) :
    k = p ∨ (∃ c cs, k = p ++ c :: cs) ∨ ¬ p <+: k := by
  by_cases h : p <+: k
  · obtain ⟨t, rfl⟩ := h
    cases t with
    | nil => left; simp
    | cons c cs => right; left; exact ⟨c, cs, rfl⟩
  · right; right; exact h

/-! ## One round of the search loop -/

/-- A common front part of key and content does not change the outcome of a round. -/
theorem searchNode_append_left (sp : List (Char × RadixTreeNode T)) (pre q r : List Char)
    (st : Bool) (val : T) :
    searchNode (.mk sp (pre ++ q) st val) (pre ++ r) = searchNode (.mk sp q st val) r := by
  rw [searchNode, searchNode, matchLoop_append_left]
  rcases matchLoop r q with ⟨a, b, c⟩
  cases b <;> cases c <;> rfl

theorem searchNode_self (sp : List (Char × RadixTreeNode T)) (pc : List Char)
    (st : Bool) (val : T) :
    searchNode (.mk sp pc st val) pc
      = if st = true then .ok val else .error .badInitialization := by
  have h := searchNode_append_left sp pc [] [] st val
  simp only [List.append_nil] at h
  rw [h, searchNode, matchLoop_nil_left]

theorem searchNode_append (sp : List (Char × RadixTreeNode T)) (pc : List Char)
    (st : Bool) (val : T) (c : Char) (cs : List Char) :
    searchNode (.mk sp pc st val) (pc ++ c :: cs) = searchPath sp c cs := by
  have h := searchNode_append_left sp pc [] (c :: cs) st val
  simp only [List.append_nil] at h
  rw [h, searchNode, matchLoop_nil_right]

theorem searchNode_mismatch (sp : List (Char × RadixTreeNode T)) (pc key : List Char)
    (st : Bool) (val : T) (h : ¬ pc <+: key) :
    searchNode (.mk sp pc st val) key = .error .noSuchKeyBang := by
  rw [searchNode]
  have hk := matchLoop_key key pc
  have hc := matchLoop_content key pc
  rcases hm : matchLoop key pc with ⟨a, b, c⟩
  rw [hm] at hk hc
  simp only at hk hc
  cases c with
  | nil =>
    exfalso
    apply h
    rw [← hk, ← hc]
    simp
  | cons x xs => cases b <;> rfl

theorem searchNode_cons_ne (sp : List (Char × RadixTreeNode T)) (x c : Char) (xs cs : List Char)
    (st : Bool) (val : T) (h : x ≠ c) :
    searchNode (.mk sp (x :: xs) st val) (c :: cs) = .error .noSuchKeyBang := by
  apply searchNode_mismatch
  rw [List.cons_prefix_cons]
  exact fun hp => h hp.1

theorem searchNode_newLeaf (key key' : List Char) (v : T) :
    searchNode (newLeaf key v) key' = if key' = key then .ok v else .error .noSuchKeyBang := by
  rcases prefix_trichotomy key key' with h | ⟨c, cs, h⟩ | h
  · subst h
    simp [newLeaf, searchNode_self]
  · subst h
    simp [newLeaf, searchNode_append, searchPath]
  · have hne : key' ≠ key := by
      rintro rfl
      exact h (List.prefix_refl _)
    simp [newLeaf, searchNode_mismatch _ _ _ _ _ h, hne]

/-! ## Search after upsert -/

theorem toOption_ok {ε α : Type} (a : α) : (Except.ok a : Except ε α).toOption = some a := rfl

theorem toOption_error {ε α : Type} (e : ε) : (Except.error e : Except ε α).toOption = none := rfl

mutual
/-- What a round of the search loop finds after a round of the upsert loop at
the same node: the new value for the upserted key, what it found before for
any other key. -/
theorem searchNode_upsertNode [Inhabited T] :
    ∀ (n : RadixTreeNode T) (key key' : List Char) (v : T),
      (searchNode (upsertNode n key v) key').toOption
        = if key' = key then some v else (searchNode n key').toOption
  | .mk sp pc st val, key, key', v => by
    have hk := matchLoop_key key pc
    have hc := matchLoop_content key pc
    have hd := matchLoop_diverge key pc
    rw [upsertNode]
    rcases hm : matchLoop key pc with ⟨pre, kq, rest⟩
    rw [hm] at hk hc hd
    simp only at hk hc hd
    subst hk hc
    cases kq with
    | nil =>
      cases rest with
      | nil =>
        simp only [List.append_nil]
        rcases prefix_trichotomy pre key' with h | ⟨c, cs, h⟩ | h
        · subst h
          simp [searchNode_self, toOption_ok]
        · subst h
          simp [searchNode_append]
        · have hne : key' ≠ pre := by
            rintro rfl
            exact h (List.prefix_refl _)
          simp [searchNode_mismatch _ _ _ _ _ h, hne]
      | cons x xs =>
        simp only [List.append_nil]
        rcases prefix_trichotomy pre key' with h | ⟨c, cs, h⟩ | h
        · subst h
          simp [searchNode_self, toOption_ok]
        · subst h
          rw [searchNode_append, searchNode_append_left]
          by_cases hxc : x = c
          · subst hxc
            simp [searchPath]
          · simp [searchPath, hxc, searchNode_cons_ne _ _ _ _ _ _ _ hxc, toOption_error]
        · have hne : key' ≠ pre := by
            rintro rfl
            exact h (List.prefix_refl _)
          have hnp : ¬ (pre ++ x :: xs) <+: key' := fun hp =>
            h ((List.prefix_append _ _).trans hp)
          simp [searchNode_mismatch _ _ _ _ _ h, searchNode_mismatch _ _ _ _ _ hnp, hne]
    | cons c cs =>
      cases rest with
      | nil =>
        simp only [List.append_nil]
        rcases prefix_trichotomy pre key' with h | ⟨c', cs', h⟩ | h
        · subst h
          simp [searchNode_self]
        · subst h
          rw [searchNode_append, searchNode_append, searchPath_upsertPath sp c cs c' cs' v]
          simp
        · have hne : key' ≠ pre ++ c :: cs := by
            rintro rfl
            exact h (List.prefix_append _ _)
          simp [searchNode_mismatch _ _ _ _ _ h, hne]
      | cons x xs =>
        have hcx : c ≠ x := hd c x cs xs rfl rfl
        simp only []
        rcases prefix_trichotomy pre key' with h | ⟨c', cs', h⟩ | h
        · subst h
          have hnp : ¬ (key' ++ x :: xs) <+: key' := by
            intro hp
            have := hp.length_le
            simp at this
          simp [searchNode_self, searchNode_mismatch _ _ _ _ _ hnp, toOption_error]
        · subst h
          rw [searchNode_append, searchNode_append_left]
          by_cases hcc : c = c'
          · subst hcc
            simp [searchPath, searchNode_newLeaf, searchNode_cons_ne _ _ _ _ _ _ _ hcx.symm,
              toOption_error]
            split <;> simp [toOption_ok, toOption_error]
          · by_cases hxc : x = c'
            · subst hxc
              have hne : ¬ (x = c) := fun h => hcc h.symm
              simp [searchPath, hcc, hne]
            · have hne : ¬ (c' = c) := fun h => hcc h.symm
              simp [searchPath, hcc, hxc, hne, searchNode_cons_ne _ _ _ _ _ _ _ hxc,
                toOption_error]
        · have hne : key' ≠ pre ++ c :: cs := by
            rintro rfl
            exact h (List.prefix_append _ _)
          have hnp : ¬ (pre ++ x :: xs) <+: key' := fun hp =>
            h ((List.prefix_append _ _).trans hp)
          simp [searchNode_mismatch _ _ _ _ _ h, searchNode_mismatch _ _ _ _ _ hnp, hne]
theorem searchPath_upsertPath [Inhabited T] :
    ∀ (sp : List (Char × RadixTreeNode T)) (c : Char) (cs : List Char) (c' : Char)
      (cs' : List Char) (v : T),
      (searchPath (upsertPath sp c cs v) c' cs').toOption
        = if c' :: cs' = c :: cs then some v else (searchPath sp c' cs').toOption
  | [], c, cs, c', cs', v => by
    by_cases hcc : c = c'
    · subst hcc
      simp [upsertPath, searchPath, searchNode_newLeaf]
      split <;> simp [toOption_ok, toOption_error]
    · have hne : ¬ (c' = c) := fun h => hcc h.symm
      simp [upsertPath, searchPath, hcc, hne, toOption_error]
  | (e, n) :: rest, c, cs, c', cs', v => by
    rw [upsertPath]
    by_cases hec : e = c
    · subst hec
      by_cases hec' : e = c'
      · subst hec'
        simp [searchPath, searchNode_upsertNode n (e :: cs) (e :: cs') v]
      · have hne : ¬ (c' = e) := fun h => hec' h.symm
        simp [searchPath, hec', hne]
    · by_cases hec' : e = c'
      · subst hec'
        have hne : ¬ (e = c) := hec
        simp [searchPath, hec]
      · simp [searchPath, hec, hec', searchPath_upsertPath rest c cs c' cs' v]
end

/-! ## Search after upsert, on the whole tree -/

theorem toOption_eq_some {ε α : Type} (e : Except ε α) (a : α) :
    e.toOption = some a ↔ e = .ok a := by
  cases e <;> simp [Except.toOption]

/-- The first step search followed by the loop finds what the lookup of the
loop finds in the root. -/
theorem firstStep_searchNode (sp : List (Char × RadixTreeNode T)) (c : Char) (cs : List Char) :
    (match firstStep sp c with
      | none => (.error .noSuchKey : Except RtError T)
      | some n => searchNode n (c :: cs)).toOption = (searchPath sp c cs).toOption := by
  induction sp with
  | nil => rfl
  | cons p rest ih =>
    obtain ⟨e, n⟩ := p
    by_cases h : e = c
    · simp [firstStep, searchPath, h]
    · simp only [firstStep, searchPath, h, if_false]
      exact ih

theorem SearchByKey_root (sp : List (Char × RadixTreeNode T)) (pc : List Char) (st : Bool)
    (val : T) (c : Char) (cs : List Char) :
    (SearchByKey ⟨some (.mk sp pc st val)⟩ (c :: cs)).toOption = (searchPath sp c cs).toOption := by
  simp only [SearchByKey, RadixTreeNode.search_path_]
  exact firstStep_searchNode sp c cs

/-- What `SearchByKey` finds after `UpsertString` with a non-empty key: the new
value for the upserted key, what it found before for any other non-empty key. -/
theorem SearchByKey_UpsertString [Inhabited T] (t : Tree T) (k k' : List Char) (v : T)
    (hk : k ≠ []) (hk' : k' ≠ []) :
    (SearchByKey (UpsertString t k v).2 k').toOption
      = if k' = k then some v else (SearchByKey t k').toOption := by
  obtain ⟨c, cs, rfl⟩ := List.exists_cons_of_ne_nil hk
  obtain ⟨c', cs', rfl⟩ := List.exists_cons_of_ne_nil hk'
  obtain ⟨root⟩ := t
  cases root with
  | none =>
    simp only [UpsertString]
    rw [SearchByKey_root]
    have h := searchPath_upsertPath ([] : List (Char × RadixTreeNode T)) c cs c' cs' v
    simp only [upsertPath] at h
    rw [h]
    simp [searchPath, SearchByKey, toOption_error]
  | some r =>
    obtain ⟨sp, pc, st, val⟩ := r
    simp only [UpsertString]
    rw [SearchByKey_root, SearchByKey_root, searchPath_upsertPath]

/-- An `UpsertString` with the empty key changes nothing. -/
theorem UpsertString_nil [Inhabited T] (t : Tree T) (v : T) :
    UpsertString t [] v = (.error .invalidKey, t) := rfl

theorem SearchByKey_nil (t : Tree T) : SearchByKey t [] = .error .noSuchKey := rfl

theorem upsertAll_append [Inhabited T] (t : Tree T) (ops ops' : List (List Char × T)) :
    upsertAll t (ops ++ ops') = upsertAll (upsertAll t ops) ops' := by
  induction ops generalizing t with
  | nil => rfl
  | cons op ops ih =>
    obtain ⟨k, v⟩ := op
    simp only [List.cons_append, upsertAll]
    exact ih _

/-- A value found after a sequence of calls was put there by the last call with
that key, or was found before the sequence, which then has no call with that key. -/
theorem SearchByKey_upsertAll [Inhabited T] (t : Tree T) (ops : List (List Char × T))
    (k : List Char) (v : T) (h : SearchByKey (upsertAll t ops) k = .ok v) :
    (∃ pre post, ops = pre ++ (k, v) :: post ∧ ∀ op ∈ post, op.1 ≠ k)
      ∨ (SearchByKey t k = .ok v ∧ ∀ op ∈ ops, op.1 ≠ k) := by
  have hk : k ≠ [] := by
    rintro rfl
    rw [SearchByKey_nil] at h
    cases h
  induction ops generalizing t with
  | nil =>
    right
    exact ⟨h, by simp⟩
  | cons op ops ih =>
    obtain ⟨k0, v0⟩ := op
    rw [upsertAll] at h
    rcases ih _ h with ⟨pre, post, hops, hpost⟩ | ⟨hfound, hnone⟩
    · left
      exact ⟨(k0, v0) :: pre, post, by simp [hops], hpost⟩
    · by_cases hk0 : k0 = []
      · subst hk0
        rw [UpsertString_nil] at hfound
        right
        refine ⟨hfound, ?_⟩
        intro op hop
        rcases List.mem_cons.1 hop with rfl | hop
        · exact fun h0 => hk h0.symm
        · exact hnone op hop
      · have hs := SearchByKey_UpsertString t k0 k v0 hk0 hk
        rw [(toOption_eq_some _ _).2 hfound] at hs
        by_cases hkk : k = k0
        · subst hkk
          rw [if_pos rfl] at hs
          cases hs
          left
          exact ⟨[], ops, rfl, hnone⟩
        · rw [if_neg hkk] at hs
          right
          refine ⟨(toOption_eq_some _ _).1 hs.symm, ?_⟩
          intro op hop
          rcases List.mem_cons.1 hop with rfl | hop
          · exact fun h0 => hkk h0.symm
          · exact hnone op hop

mutual
/-- A value returned by the search loop is the `value_` of a node with `is_stop_ = true`. -/
theorem searchNode_ok_stop :
    ∀ (n : RadixTreeNode T) (key : List Char) (v : T), searchNode n key = .ok v →
      ∃ m ∈ n.nodes, m.is_stop_ = true ∧ m.value_ = v
  | .mk sp pc st val, key, v, h => by
    rw [searchNode] at h
    generalize matchLoop key pc = r at h
    obtain ⟨pre, kq, rest⟩ := r
    cases kq with
    | nil =>
      cases rest with
      | nil =>
        cases st with
        | false => simp at h
        | true =>
          simp only [if_true, Except.ok.injEq] at h
          exact ⟨.mk sp pc true val, by simp [RadixTreeNode.nodes], rfl, h⟩
      | cons x xs => simp at h
    | cons c cs =>
      cases rest with
      | nil =>
        simp only at h
        obtain ⟨m, hm, hst⟩ := searchPath_ok_stop sp c cs v h
        exact ⟨m, by simp [RadixTreeNode.nodes, hm], hst⟩
      | cons x xs => simp at h
theorem searchPath_ok_stop :
    ∀ (sp : List (Char × RadixTreeNode T)) (c : Char) (cs : List Char) (v : T),
      searchPath sp c cs = .ok v → ∃ m ∈ pathNodes sp, m.is_stop_ = true ∧ m.value_ = v
  | [], c, cs, v, h => by simp [searchPath] at h
  | (e, n) :: rest, c, cs, v, h => by
    rw [searchPath] at h
    by_cases hec : e = c
    · rw [if_pos hec] at h
      obtain ⟨m, hm, hst⟩ := searchNode_ok_stop n (c :: cs) v h
      exact ⟨m, by simp [pathNodes, hm], hst⟩
    · rw [if_neg hec] at h
      obtain ⟨m, hm, hst⟩ := searchPath_ok_stop rest c cs v h
      exact ⟨m, by simp [pathNodes, hm], hst⟩
end

theorem firstStep_mem (sp : List (Char × RadixTreeNode T)) (c : Char) (n : RadixTreeNode T)
    (h : firstStep sp c = some n) : ∀ m ∈ n.nodes, m ∈ pathNodes sp := by
  induction sp with
  | nil => simp [firstStep] at h
  | cons p rest ih =>
    obtain ⟨e, n0⟩ := p
    by_cases hec : e = c
    · simp only [firstStep, hec, if_true, Option.some.injEq] at h
      subst h
      intro m hm
      simp [pathNodes, hm]
    · simp only [firstStep, hec, if_false] at h
      intro m hm
      simp [pathNodes, ih h m hm]

/-- A value returned by `SearchByKey` is the `value_` of a node of the tree with
`is_stop_ = true`. -/
theorem SearchByKey_ok_stop (t : Tree T) (k : List Char) (v : T) (h : SearchByKey t k = .ok v) :
    ∃ m ∈ t.nodes, m.is_stop_ = true ∧ m.value_ = v := by
  obtain ⟨root⟩ := t
  cases k with
  | nil => simp [SearchByKey] at h
  | cons c cs =>
    cases root with
    | none => simp [SearchByKey] at h
    | some r =>
      obtain ⟨sp, pc, st, val⟩ := r
      simp only [SearchByKey, RadixTreeNode.search_path_] at h
      cases hf : firstStep sp c with
      | none => simp [hf] at h
      | some n =>
        simp only [hf] at h
        obtain ⟨m, hm, hst⟩ := searchNode_ok_stop n (c :: cs) v h
        exact ⟨m, by simp [Tree.nodes, RadixTreeNode.nodes, firstStep_mem sp c n hf m hm], hst⟩

/-! ## Upsert of a stored key -/

mutual
/-- A round of the upsert loop for a key the search loop finds leaves the number
of stop nodes of the subtree as it was. -/
theorem countP_upsertNode_of_found [Inhabited T] :
    ∀ (n : RadixTreeNode T) (key : List Char) (v w : T), searchNode n key = .ok w →
      (upsertNode n key v).nodes.countP (fun m => m.is_stop_)
        = n.nodes.countP (fun m => m.is_stop_)
  | .mk sp pc st val, key, v, w, h => by
    rw [searchNode] at h
    rw [upsertNode]
    generalize matchLoop key pc = r at h
    obtain ⟨pre, kq, rest⟩ := r
    cases kq with
    | nil =>
      cases rest with
      | nil =>
        cases st with
        | false => simp at h
        | true => rfl
      | cons x xs => simp at h
    | cons c cs =>
      cases rest with
      | nil =>
        simp only at h
        simp only [RadixTreeNode.nodes, List.countP_cons]
        rw [countP_upsertPath_of_found sp c cs v w h]
        rfl
      | cons x xs => simp at h
theorem countP_upsertPath_of_found [Inhabited T] :
    ∀ (sp : List (Char × RadixTreeNode T)) (c : Char) (cs : List Char) (v w : T),
      searchPath sp c cs = .ok w →
      (pathNodes (upsertPath sp c cs v)).countP (fun m => m.is_stop_)
        = (pathNodes sp).countP (fun m => m.is_stop_)
  | [], c, cs, v, w, h => by simp [searchPath] at h
  | (e, n) :: rest, c, cs, v, w, h => by
    rw [searchPath] at h
    rw [upsertPath]
    by_cases hec : e = c
    · rw [if_pos hec] at h
      rw [if_pos hec]
      simp only [pathNodes, List.countP_append]
      rw [countP_upsertNode_of_found n (c :: cs) v w h]
    · rw [if_neg hec] at h
      rw [if_neg hec]
      simp only [pathNodes, List.countP_append]
      rw [countP_upsertPath_of_found rest c cs v w h]
end

/-- `UpsertString` of a key `SearchByKey` finds leaves the number of stop nodes as it was. -/
theorem stopCount_UpsertString_of_found [Inhabited T] (t : Tree T) (k : List Char) (v w : T)
    (h : SearchByKey t k = .ok w) : (UpsertString t k v).2.stopCount = t.stopCount := by
  obtain ⟨root⟩ := t
  cases k with
  | nil => rfl
  | cons c cs =>
    cases root with
    | none => simp [SearchByKey] at h
    | some r =>
      obtain ⟨sp, pc, st, val⟩ := r
      have hs := SearchByKey_root sp pc st val c cs
      rw [h, toOption_ok] at hs
      have hp := (toOption_eq_some _ _).1 hs.symm
      simp only [UpsertString, Tree.stopCount, Tree.nodes, RadixTreeNode.nodes, List.countP_cons]
      rw [countP_upsertPath_of_found sp c cs v w hp]
      rfl

/-! ## Edge symbols -/

/-- The characters of a `search_path_` after the lookup of the upsert loop: the
front of the key queue is pushed back unless it is there already. -/
theorem map_fst_upsertPath [Inhabited T] (sp : List (Char × RadixTreeNode T)) (c : Char)
    (cs : List Char) (v : T) :
    (upsertPath sp c cs v).map Prod.fst
      = if c ∈ sp.map Prod.fst then sp.map Prod.fst else sp.map Prod.fst ++ [c] := by
  induction sp with
  | nil => simp [upsertPath]
  | cons p rest ih =>
    obtain ⟨e, n⟩ := p
    by_cases hec : e = c
    · simp [upsertPath, hec]
    · have hne : ¬ (c = e) := fun h => hec h.symm
      simp only [upsertPath, hec, if_false, List.map_cons, ih, List.mem_cons, hne, false_or]
      split <;> simp

theorem nodup_map_fst_upsertPath [Inhabited T] (sp : List (Char × RadixTreeNode T)) (c : Char)
    (cs : List Char) (v : T) (h : (sp.map Prod.fst).Nodup) :
    ((upsertPath sp c cs v).map Prod.fst).Nodup := by
  rw [map_fst_upsertPath]
  split
  · exact h
  · rename_i hc
    rw [List.nodup_append]
    refine ⟨h, List.nodup_singleton c, ?_⟩
    intro a ha hb
    simp only [List.mem_singleton] at hb
    subst hb
    exact hc ha

mutual
/-- A round of the upsert loop keeps the edge symbols of every node of the
subtree pairwise distinct. -/
theorem edges_nodup_upsertNode [Inhabited T] :
    ∀ (n : RadixTreeNode T) (key : List Char) (v : T), (∀ m ∈ n.nodes, m.edges.Nodup) →
      ∀ m ∈ (upsertNode n key v).nodes, m.edges.Nodup
  | .mk sp pc st val, key, v, h => by
    have hd := matchLoop_diverge key pc
    have hroot : (sp.map Prod.fst).Nodup := h (.mk sp pc st val) (by simp [RadixTreeNode.nodes])
    have hsub : ∀ m ∈ pathNodes sp, m.edges.Nodup := fun m hm =>
      h m (by simp [RadixTreeNode.nodes, hm])
    rw [upsertNode]
    generalize matchLoop key pc = r at hd
    obtain ⟨pre, kq, rest⟩ := r
    cases kq with
    | nil =>
      cases rest with
      | nil =>
        intro m hm
        simp only [RadixTreeNode.nodes, List.mem_cons] at hm
        rcases hm with rfl | hm
        · exact hroot
        · exact hsub m hm
      | cons x xs =>
        intro m hm
        simp only [RadixTreeNode.nodes, pathNodes, List.mem_cons, List.append_nil] at hm
        rcases hm with rfl | rfl | hm
        · simp [RadixTreeNode.edges, RadixTreeNode.search_path_]
        · exact hroot
        · exact hsub m hm
    | cons c cs =>
      cases rest with
      | nil =>
        intro m hm
        simp only [RadixTreeNode.nodes, List.mem_cons] at hm
        rcases hm with rfl | hm
        · exact nodup_map_fst_upsertPath sp c cs v hroot
        · exact edges_nodup_upsertPath sp c cs v hsub m hm
      | cons x xs =>
        have hcx : c ≠ x := hd c x cs xs rfl rfl
        intro m hm
        simp only [RadixTreeNode.nodes, pathNodes, newLeaf, List.mem_cons, List.append_nil,
          List.cons_append, List.nil_append] at hm
        rcases hm with rfl | rfl | rfl | hm
        · simp [RadixTreeNode.edges, RadixTreeNode.search_path_, hcx]
        · simp [RadixTreeNode.edges, RadixTreeNode.search_path_]
        · exact hroot
        · exact hsub m hm
theorem edges_nodup_upsertPath [Inhabited T] :
    ∀ (sp : List (Char × RadixTreeNode T)) (c : Char) (cs : List Char) (v : T),
      (∀ m ∈ pathNodes sp, m.edges.Nodup) →
      ∀ m ∈ pathNodes (upsertPath sp c cs v), m.edges.Nodup
  | [], c, cs, v, _ => by
    intro m hm
    simp only [upsertPath, pathNodes, newLeaf, RadixTreeNode.nodes, List.append_nil,
      List.mem_singleton] at hm
    subst hm
    simp [RadixTreeNode.edges, RadixTreeNode.search_path_]
  | (e, n) :: rest, c, cs, v, h => by
    have hn : ∀ m ∈ n.nodes, m.edges.Nodup := fun m hm => h m (by simp [pathNodes, hm])
    have hrest : ∀ m ∈ pathNodes rest, m.edges.Nodup := fun m hm => h m (by simp [pathNodes, hm])
    rw [upsertPath]
    by_cases hec : e = c
    · rw [if_pos hec]
      intro m hm
      simp only [pathNodes, List.mem_append] at hm
      rcases hm with hm | hm
      · exact edges_nodup_upsertNode n (c :: cs) v hn m hm
      · exact hrest m hm
    · rw [if_neg hec]
      intro m hm
      simp only [pathNodes, List.mem_append] at hm
      rcases hm with hm | hm
      · exact hn m hm
      · exact edges_nodup_upsertPath rest c cs v hrest m hm
end

/-- `UpsertString` keeps the edge symbols of every node pairwise distinct. -/
theorem edges_nodup_UpsertString [Inhabited T] (t : Tree T) (k : List Char) (v : T)
    (h : ∀ m ∈ t.nodes, m.edges.Nodup) : ∀ m ∈ (UpsertString t k v).2.nodes, m.edges.Nodup := by
  obtain ⟨root⟩ := t
  cases k with
  | nil => exact h
  | cons c cs =>
    cases root with
    | none =>
      intro m hm
      simp only [UpsertString, Tree.nodes, RadixTreeNode.nodes, pathNodes, newLeaf,
        List.append_nil, List.mem_cons, List.mem_singleton, List.not_mem_nil, or_false] at hm
      rcases hm with rfl | rfl <;> simp [RadixTreeNode.edges, RadixTreeNode.search_path_]
    | some r =>
      obtain ⟨sp, pc, st, val⟩ := r
      have hroot : (sp.map Prod.fst).Nodup :=
        h (.mk sp pc st val) (by simp [Tree.nodes, RadixTreeNode.nodes])
      have hsub : ∀ m ∈ pathNodes sp, m.edges.Nodup := fun m hm =>
        h m (by simp [Tree.nodes, RadixTreeNode.nodes, hm])
      intro m hm
      simp only [UpsertString, Tree.nodes, RadixTreeNode.nodes, List.mem_cons] at hm
      rcases hm with rfl | hm
      · exact nodup_map_fst_upsertPath sp c cs v hroot
      · exact edges_nodup_upsertPath sp c cs v hsub m hm

theorem edges_nodup_upsertAll [Inhabited T] (t : Tree T) (ops : List (List Char × T))
    (h : ∀ m ∈ t.nodes, m.edges.Nodup) : ∀ m ∈ (upsertAll t ops).nodes, m.edges.Nodup := by
  induction ops generalizing t with
  | nil => exact h
  | cons op ops ih =>
    obtain ⟨k, v⟩ := op
    rw [upsertAll]
    exact ih _ (edges_nodup_UpsertString t k v h)

/-- `SearchByKey` right after `UpsertString` with a non-empty key, on any tree. -/
theorem SearchByKey_UpsertString_self [Inhabited T] (t : Tree T) (k : List Char) (v : T)
    (hk : k ≠ []) : SearchByKey (UpsertString t k v).2 k = .ok v := by
  rw [← toOption_eq_some, SearchByKey_UpsertString t k k v hk hk, if_pos rfl]

/-- `SearchByKey` of another key after `UpsertString` with a non-empty key, on any tree. -/
theorem SearchByKey_UpsertString_of_ne [Inhabited T] (t : Tree T) (k k' : List Char) (v w : T)
    (hk : k ≠ []) (hne : k' ≠ k) (hw : SearchByKey t k' = .ok w) :
    SearchByKey (UpsertString t k v).2 k' = .ok w := by
  have hk' : k' ≠ [] := by
    rintro rfl
    rw [SearchByKey_nil] at hw
    cases hw
  rw [← toOption_eq_some, SearchByKey_UpsertString t k k' v hk hk', if_neg hne, hw, toOption_ok]

/-! ## The claims -/

/-- C1. Round trip: on every tree obtained from the empty tree by a finite
sequence of `UpsertString` calls (a call with an empty key throws and changes
nothing, so the sequences with non-empty keys are covered), for every non-empty
key `k` and every value `v`, `SearchByKey(k)` right after `UpsertString(k, v)`
returns exactly `v`. -/
theorem C1_search_after_upsert [Inhabited T] (ops : List (List Char × T)) (k : List Char)
    (v : T) (hk : k ≠ []) :
    SearchByKey (UpsertString (upsertAll Tree.empty ops) k v).2 k = .ok v :=
  SearchByKey_UpsertString_self _ k v hk

theorem C1_search_after_upsert_witness :
    "car".toList ≠ [] ∧
      SearchByKey (UpsertString (upsertAll Tree.empty [("cat".toList, 1), ("card".toList, 2)])
        "car".toList 3).2 "car".toList = .ok 3 :=
  ⟨by decide, C1_search_after_upsert [("cat".toList, 1), ("card".toList, 2)] "car".toList 3
    (by decide)⟩

/-- C2. Other keys are preserved: on every tree built from the empty tree by
`UpsertString` calls, for every non-empty key `k`, value `v` and key `k'`
different from `k`, if `SearchByKey(k')` returned `w` before `UpsertString(k, v)`
it returns the same `w` afterwards. And after inserting "test", "testing",
"tester" with `v1`, `v2`, `v3`, the three keys are found with their own values. -/
theorem C2_other_keys_preserved [Inhabited T] :
    (∀ (ops : List (List Char × T)) (k k' : List Char) (v w : T), k ≠ [] → k' ≠ k →
      SearchByKey (upsertAll Tree.empty ops) k' = .ok w →
      SearchByKey (UpsertString (upsertAll Tree.empty ops) k v).2 k' = .ok w)
    ∧ (∀ v1 v2 v3 : T,
      SearchByKey (upsertAll Tree.empty
          [("test".toList, v1), ("testing".toList, v2), ("tester".toList, v3)]) "test".toList
        = .ok v1
      ∧ SearchByKey (upsertAll Tree.empty
          [("test".toList, v1), ("testing".toList, v2), ("tester".toList, v3)]) "testing".toList
        = .ok v2
      ∧ SearchByKey (upsertAll Tree.empty
          [("test".toList, v1), ("testing".toList, v2), ("tester".toList, v3)]) "tester".toList
        = .ok v3) :=
  ⟨fun _ k k' v w hk hne hw => SearchByKey_UpsertString_of_ne _ k k' v w hk hne hw,
    fun _ _ _ => ⟨rfl, rfl, rfl⟩⟩

theorem C2_other_keys_preserved_witness :
    "card".toList ≠ [] ∧ "car".toList ≠ "card".toList
      ∧ SearchByKey (upsertAll Tree.empty [("car".toList, 1)]) "car".toList = .ok 1
      ∧ SearchByKey (UpsertString (upsertAll Tree.empty [("car".toList, 1)])
          "card".toList 2).2 "car".toList = .ok 1 :=
  ⟨by decide, by decide, rfl,
    C2_other_keys_preserved.1 [("car".toList, 1)] "card".toList "car".toList 2 1
      (by decide) (by decide) rfl⟩

/-- C3. Update does not duplicate: on every tree built from the empty tree by
`UpsertString` calls, for every non-empty key `k` and values `v1`, `v2`, after
`UpsertString(k, v1)` followed by `UpsertString(k, v2)`, `SearchByKey(k)` returns
`v2`, and the number of nodes with `is_stop_ = true` is the same before and
after the second call. -/
theorem C3_update_not_duplicate [Inhabited T] (ops : List (List Char × T)) (k : List Char)
    (v1 v2 : T) (hk : k ≠ []) :
    SearchByKey
        (UpsertString (UpsertString (upsertAll Tree.empty ops) k v1).2 k v2).2 k = .ok v2
      ∧ (UpsertString (UpsertString (upsertAll Tree.empty ops) k v1).2 k v2).2.stopCount
        = (UpsertString (upsertAll Tree.empty ops) k v1).2.stopCount :=
  ⟨SearchByKey_UpsertString_self _ k v2 hk,
    stopCount_UpsertString_of_found _ k v2 v1 (SearchByKey_UpsertString_self _ k v1 hk)⟩

theorem C3_update_not_duplicate_witness :
    "te".toList ≠ [] ∧
    SearchByKey
        (UpsertString (UpsertString (upsertAll Tree.empty
          [("test".toList, 1), ("team".toList, 2)]) "te".toList 3).2 "te".toList 4).2 "te".toList
        = .ok 4
      ∧ (UpsertString (UpsertString (upsertAll Tree.empty
          [("test".toList, 1), ("team".toList, 2)]) "te".toList 3).2 "te".toList 4).2.stopCount
        = (UpsertString (upsertAll Tree.empty
          [("test".toList, 1), ("team".toList, 2)]) "te".toList 3).2.stopCount :=
  ⟨by decide, C3_update_not_duplicate [("test".toList, 1), ("team".toList, 2)] "te".toList 3 4
    (by decide)⟩

/-- C4. Search returns only stored values: on every tree built from the empty
tree by a sequence of `UpsertString` calls, if `SearchByKey(k)` returns a value
`v`, then the sequence contains an `UpsertString(k, v)` with no later
`UpsertString` with key `k` (so a key never upserted is never found), and `v` is
the `value_` of a node of the tree with `is_stop_ = true`. -/
theorem C4_search_only_stored [Inhabited T] (ops : List (List Char × T)) (k : List Char)
    (v : T) (h : SearchByKey (upsertAll Tree.empty ops) k = .ok v) :
    (∃ pre post, ops = pre ++ (k, v) :: post ∧ ∀ op ∈ post, op.1 ≠ k)
      ∧ ∃ m ∈ (upsertAll Tree.empty ops).nodes, m.is_stop_ = true ∧ m.value_ = v := by
  refine ⟨?_, SearchByKey_ok_stop _ k v h⟩
  rcases SearchByKey_upsertAll Tree.empty ops k v h with hfound | ⟨hempty, _⟩
  · exact hfound
  · cases k <;> simp [SearchByKey, Tree.empty] at hempty

theorem C4_search_only_stored_witness :
    SearchByKey (upsertAll Tree.empty [("cat".toList, 1), ("car".toList, 2), ("cat".toList, 3)])
        "cat".toList = .ok 3
      ∧ (∃ pre post, [("cat".toList, 1), ("car".toList, 2), ("cat".toList, 3)]
            = pre ++ ("cat".toList, 3) :: post ∧ ∀ op ∈ post, op.1 ≠ "cat".toList)
      ∧ ∃ m ∈ (upsertAll Tree.empty
            [("cat".toList, 1), ("car".toList, 2), ("cat".toList, 3)]).nodes,
          m.is_stop_ = true ∧ m.value_ = 3 :=
  ⟨rfl, C4_search_only_stored [("cat".toList, 1), ("car".toList, 2), ("cat".toList, 3)]
    "cat".toList 3 rfl⟩

/-- C5. After inserting "cat" and "car" both keys are found, and `SearchByKey("ca")`,
a key never upserted, ends in the both-exhausted branch at the branch node "ca"
(`is_stop_ = false`) and throws the bad-initialization message, which is not a
key-not-found error. -/
theorem C5_search_ca_after_cat_car :
    SearchByKey (upsertAll Tree.empty [("cat".toList, 1), ("car".toList, 2)]) "cat".toList
        = .ok 1
      ∧ SearchByKey (upsertAll Tree.empty [("cat".toList, 1), ("car".toList, 2)]) "car".toList
        = .ok 2
      ∧ SearchByKey (upsertAll Tree.empty [("cat".toList, 1), ("car".toList, 2)]) "ca".toList
        = .error .badInitialization
      ∧ RtError.kind .badInitialization ≠ some .KeyNotFoundError :=
  ⟨rfl, rfl, rfl, by decide⟩

/-- C6. The bad-initialization error is reached on a tree built by `UpsertString`
alone: "ab" then "ac" give a branch node "a" with `is_stop_ = false` over the
leaves "c" and "b", and `SearchByKey("a")` throws the bad-initialization message. -/
theorem C6_bad_initialization_reached :
    upsertAll Tree.empty [("ab".toList, 1), ("ac".toList, 2)]
        = ⟨some (.mk [('a', .mk [('c', .mk [] ['c'] true 2), ('b', .mk [] ['b'] true 1)]
            ['a'] false 0)] [] false 0)⟩
      ∧ SearchByKey (upsertAll Tree.empty [("ab".toList, 1), ("ac".toList, 2)]) "a".toList
        = .error .badInitialization :=
  ⟨rfl, rfl⟩

/-- C7. On the freshly constructed tree (`root_` null) `SearchByKey` with a
non-empty key passes the parameter check and then reads `root_->search_path_`
through the null `root_`: no key-not-found error is thrown. -/
theorem C7_search_on_empty_tree (c : Char) (cs : List Char) :
    SearchByKey (Tree.empty : Tree T) (c :: cs) = .error .nullDereference ∧
      RtError.kind .nullDereference ≠ some .KeyNotFoundError :=
  ⟨rfl, by decide⟩

/-- C8. `UpsertString` fails if and only if the key is empty: on every tree,
with the empty key it throws the invalid-key error and leaves the tree exactly as
it was, and with a key that is not empty it completes without error. -/
theorem C8_upsert_fails_iff_empty_key [Inhabited T] (t : Tree T) (k : List Char) (v : T) :
    UpsertString t [] v = (.error .invalidKey, t)
      ∧ ((UpsertString t k v).1 = .error .invalidKey ↔ k = [])
      ∧ ((UpsertString t k v).1 = .ok () ↔ k ≠ []) := by
  refine ⟨rfl, ?_, ?_⟩
  · cases k with
    | nil => simp [UpsertString]
    | cons c cs =>
      obtain ⟨root⟩ := t
      cases root with
      | none => simp [UpsertString]
      | some r =>
        obtain ⟨sp, pc, st, val⟩ := r
        simp [UpsertString]
  · cases k with
    | nil => simp [UpsertString]
    | cons c cs =>
      obtain ⟨root⟩ := t
      cases root with
      | none => simp [UpsertString]
      | some r =>
        obtain ⟨sp, pc, st, val⟩ := r
        simp [UpsertString]

/-- C9, as stated, fails: on the tree holding "a", `SearchByKey("")` does not
throw the invalid-key error; it throws the very error that the missing non-empty
key "b" produces. -/
theorem C9_empty_key_not_invalid_key :
    SearchByKey (upsertAll Tree.empty [("a".toList, 1)]) []
        ≠ .error .invalidKey
      ∧ SearchByKey (upsertAll Tree.empty [("a".toList, 1)]) []
        = SearchByKey (upsertAll Tree.empty [("a".toList, 1)]) "b".toList :=
  ⟨by simp [SearchByKey], rfl⟩

/-- C9, amended. On every tree (the empty tree included) `SearchByKey("")` fails
with the "No such key" error, a key-not-found error: the same error a non-empty
key produces when its first symbol has no edge under the root, and not the
"Invalid key" error of `UpsertString`. -/
theorem C9_search_empty_key (t : Tree T) :
    SearchByKey t [] = .error .noSuchKey
      ∧ RtError.kind .noSuchKey = some .KeyNotFoundError
      ∧ RtError.noSuchKey ≠ RtError.invalidKey
      ∧ ∀ (root : RadixTreeNode T) (c : Char) (cs : List Char), t.root_ = some root →
          firstStep root.search_path_ c = none → SearchByKey t (c :: cs) = SearchByKey t [] := by
  refine ⟨rfl, rfl, by decide, ?_⟩
  intro root c cs hroot hfirst
  simp [SearchByKey, hroot, hfirst]

theorem C9_search_empty_key_witness :
    (upsertAll Tree.empty [("a".toList, 1)]).root_ = some (.mk [('a', .mk [] ['a'] true 1)] [] false 0)
      ∧ firstStep (RadixTreeNode.mk [('a', .mk [] ['a'] true 1)] [] false 0).search_path_ 'b' = none
      ∧ SearchByKey (upsertAll Tree.empty [("a".toList, 1)]) ['b', 'c']
        = SearchByKey (upsertAll Tree.empty [("a".toList, 1)]) [] :=
  ⟨rfl, rfl, (C9_search_empty_key (upsertAll Tree.empty [("a".toList, 1)])).2.2.2
    (.mk [('a', .mk [] ['a'] true 1)] [] false 0) 'b' ['c'] rfl rfl⟩

/-- C10. Edge uniqueness: after any finite sequence of `UpsertString` calls
starting from the empty tree, in every node of the tree (root included) the edge
symbols of `search_path_` are pairwise distinct. -/
theorem C10_edges_distinct [Inhabited T] (ops : List (List Char × T)) :
    ∀ n ∈ (upsertAll Tree.empty ops).nodes, n.edges.Nodup :=
  edges_nodup_upsertAll Tree.empty ops (by simp [Tree.nodes, Tree.empty])

theorem C10_edges_distinct_witness :
    RadixTreeNode.mk [('t', .mk [] ['t'] true 1), ('r', .mk [] ['r'] true 2)] ['c', 'a'] false 0
        ∈ (upsertAll Tree.empty [("car".toList, 2), ("cat".toList, 1)]).nodes
      ∧ (RadixTreeNode.mk [('t', .mk [] ['t'] true 1), ('r', .mk [] ['r'] true 2)]
          ['c', 'a'] false 0).edges.Nodup :=
  ⟨List.mem_cons_of_mem _ (List.mem_cons_self _ _),
    C10_edges_distinct [("car".toList, 2), ("cat".toList, 1)] _
      (List.mem_cons_of_mem _ (List.mem_cons_self _ _))⟩

/-! ## Single rounds of the upsert loop -/

/-- The loop stops where key and content diverge. -/
theorem matchLoop_of_diverge (pre ks xs : List Char) (a b : Char) (hab : a ≠ b) :
    matchLoop (pre ++ a :: ks) (pre ++ b :: xs) = (pre, a :: ks, b :: xs) := by
  rw [matchLoop_append_left]
  simp [matchLoop, hab]

/-- The loop stops at the end of a key that is a front part of the content. -/
theorem matchLoop_of_key_front (pre xs : List Char) :
    matchLoop pre (pre ++ xs) = (pre, [], xs) := by
  have h := matchLoop_append_left pre [] xs
  simp only [List.append_nil] at h
  rw [h, matchLoop_nil_left]
  simp

/-- Two sequences split at their longest common prefix. -/
theorem lcp_split (k s : List Char) :
    ∃ k' s', k = lcp k s ++ k' ∧ s = lcp k s ++ s' ∧
      ∀ a b ks ss, k' = a :: ks → s' = b :: ss → a ≠ b := by
  induction k generalizing s with
  | nil => exact ⟨[], s, by simp [lcp], by simp [lcp], by simp⟩
  | cons x xs ih =>
    cases s with
    | nil => exact ⟨x :: xs, [], by simp [lcp], by simp [lcp], by simp⟩
    | cons y ys =>
      by_cases hxy : x = y
      · subst hxy
        obtain ⟨k', s', hk, hs, hd⟩ := ih ys
        refine ⟨k', s', ?_, ?_, hd⟩
        · simp only [lcp, if_true, List.cons_append]
          rw [← hk]
        · simp only [lcp, if_true, List.cons_append]
          rw [← hs]
      · refine ⟨x :: xs, y :: ys, by simp [lcp, hxy], by simp [lcp, hxy], ?_⟩
        intro a b ks ss h1 h2
        simp only [List.cons.injEq] at h1 h2
        rw [← h1.1, ← h2.1]
        exact hxy

/-- The branch split below the root, with key and content given by their common
part and the two symbols on which they diverge. -/
theorem UpsertString_branch_split [Inhabited T] (e : Char) (pre ks ss : List Char) (a b : Char)
    (hab : a ≠ b) (cs : List (Char × RadixTreeNode T)) (f : Bool) (w v : T)
    (rpc : List Char) (rst : Bool) (rval : T) :
    UpsertString ⟨some (.mk [(e, .mk cs (e :: pre ++ b :: ss) f w)] rpc rst rval)⟩
        (e :: pre ++ a :: ks) v
      = (.ok (), ⟨some (.mk [(e, .mk [(a, .mk [] (a :: ks) true v), (b, .mk cs (b :: ss) f w)]
          (e :: pre) false default)] rpc rst rval)⟩) := by
  have h := matchLoop_of_diverge (e :: pre) ks ss a b hab
  simp only [List.cons_append] at h
  simp only [List.cons_append, UpsertString, upsertPath, if_true, upsertNode, h, newLeaf]

/-- The prefix split below the root. -/
theorem UpsertString_prefix_split [Inhabited T] (e : Char) (pre ss : List Char) (b : Char)
    (cs : List (Char × RadixTreeNode T)) (f : Bool) (w v : T)
    (rpc : List Char) (rst : Bool) (rval : T) :
    UpsertString ⟨some (.mk [(e, .mk cs (e :: pre ++ b :: ss) f w)] rpc rst rval)⟩ (e :: pre) v
      = (.ok (), ⟨some (.mk [(e, .mk [(b, .mk cs (b :: ss) f w)] (e :: pre) true v)]
          rpc rst rval)⟩) := by
  have h := matchLoop_of_key_front (e :: pre) (b :: ss)
  simp only [List.cons_append] at h
  simp only [List.cons_append, UpsertString, upsertPath, if_true, upsertNode, h]

/-- C14. Not found on partial match in a single-key tree: for every non-empty
key `s` and value `v`, on the tree obtained from the empty tree by the single call
`UpsertString(s, v)`, `SearchByKey(k)` fails with a key-not-found error for every
non-empty key `k` different from `s`; with `s` = "hello" this is so for the strict
prefix "hell" and for the strict extension "helloo". -/
theorem C14_single_key_not_found [Inhabited T] :
    (∀ (s k : List Char) (v : T), s ≠ [] → k ≠ [] → k ≠ s →
      ∃ e, SearchByKey (UpsertString Tree.empty s v).2 k = .error e
        ∧ e.kind = some .KeyNotFoundError)
    ∧ (∀ v : T,
      SearchByKey (UpsertString Tree.empty "hello".toList v).2 "hell".toList
        = .error .noSuchKeyBang
      ∧ SearchByKey (UpsertString Tree.empty "hello".toList v).2 "helloo".toList
        = .error .noSuchKeyBang) := by
  refine ⟨?_, fun _ => ⟨rfl, rfl⟩⟩
  intro s k v hs hk hne
  obtain ⟨c, cs, rfl⟩ := List.exists_cons_of_ne_nil hs
  obtain ⟨c', cs', rfl⟩ := List.exists_cons_of_ne_nil hk
  by_cases hcc : c = c'
  · subst hcc
    refine ⟨.noSuchKeyBang, ?_, rfl⟩
    simp only [UpsertString, Tree.empty, SearchByKey, RadixTreeNode.search_path_, firstStep,
      if_true]
    rw [searchNode_newLeaf, if_neg hne]
  · refine ⟨.noSuchKey, ?_, rfl⟩
    simp [UpsertString, Tree.empty, SearchByKey, RadixTreeNode.search_path_, firstStep, hcc]

theorem C14_single_key_not_found_witness :
    "hello".toList ≠ [] ∧ "help".toList ≠ [] ∧ "help".toList ≠ "hello".toList
      ∧ ∃ e, SearchByKey (UpsertString Tree.empty "hello".toList 1).2 "help".toList = .error e
        ∧ e.kind = some .KeyNotFoundError :=
  ⟨by decide, by decide, by decide,
    C14_single_key_not_found.1 "hello".toList "help".toList 1 (by decide) (by decide)
      (by decide)⟩

/-- C15. Branch split (neither exhausted): for a tree whose root has a single
child with segment `s`, flag `f`, value `w` and children `cs` (stored under the
first symbol of `s`), and for every key `k` and value `v` such that the longest
common prefix `p` of `k` and `s` has `0 < |p| < |s|` and `|p| < |k|`,
`UpsertString(k, v)` yields a root whose single child has segment `p`,
`is_stop_ = false`, value `T{}` and exactly two children: a stop leaf with
segment `k` without `p` and value `v` under the edge `k[|p|]`, then a node with
segment `s` without `p`, flag `f`, value `w` and children `cs` under the edge
`s[|p|]`. -/
theorem C15_branch_split [Inhabited T] (e : Char) (cs : List (Char × RadixTreeNode T))
    (s k : List Char) (f : Bool) (w v : T) (rpc : List Char) (rst : Bool) (rval : T)
    (he : s.head? = some e) (h0 : 0 < (lcp k s).length) (hs : (lcp k s).length < s.length)
    (hk : (lcp k s).length < k.length) :
    ∃ a ks b ss, k = lcp k s ++ a :: ks ∧ s = lcp k s ++ b :: ss ∧
      UpsertString ⟨some (.mk [(e, .mk cs s f w)] rpc rst rval)⟩ k v
        = (.ok (), ⟨some (.mk [(e, .mk [(a, .mk [] (a :: ks) true v), (b, .mk cs (b :: ss) f w)]
            (lcp k s) false default)] rpc rst rval)⟩) := by
  obtain ⟨k', s', hk', hs', hd⟩ := lcp_split k s
  generalize lcp k s = p at *
  subst hk' hs'
  cases p with
  | nil => simp at h0
  | cons e0 pre =>
    simp only [List.cons_append, List.head?_cons, Option.some.injEq] at he
    subst he
    cases k' with
    | nil => simp at hk
    | cons a ks =>
      cases s' with
      | nil => simp at hs
      | cons b ss =>
        exact ⟨a, ks, b, ss, rfl, rfl,
          UpsertString_branch_split e0 pre ks ss a b (hd a b ks ss rfl rfl) cs f w v rpc rst rval⟩

theorem C15_branch_split_witness :
    "test".toList.head? = some 't'
      ∧ 0 < (lcp "team".toList "test".toList).length
      ∧ (lcp "team".toList "test".toList).length < "test".toList.length
      ∧ (lcp "team".toList "test".toList).length < "team".toList.length
      ∧ ∃ a ks b ss, "team".toList = lcp "team".toList "test".toList ++ a :: ks
        ∧ "test".toList = lcp "team".toList "test".toList ++ b :: ss
        ∧ UpsertString ⟨some (.mk [('t', .mk [] "test".toList true 1)] [] false 0)⟩
            "team".toList 2
          = (.ok (), ⟨some (.mk [('t', .mk [(a, .mk [] (a :: ks) true 2),
              (b, .mk [] (b :: ss) true 1)] (lcp "team".toList "test".toList) false default)]
              [] false 0)⟩) :=
  ⟨rfl, by decide, by decide, by decide,
    C15_branch_split 't' [] "test".toList "team".toList true 1 2 [] false 0 rfl (by decide)
      (by decide) (by decide)⟩

/-- C16. Prefix split (key exhausted, segment remains): for a tree whose root has
a single child with segment `s`, flag `f`, value `w` and children `cs` (stored
under the first symbol of `s`), and for every non-empty key `k` that is a strict
prefix of `s` and every value `v`, `UpsertString(k, v)` yields a root whose single
child has segment `k`, `is_stop_ = true`, value `v` and exactly one child, under
the edge `s[|k|]`, with segment `s` without `k`, flag `f`, value `w` and children
`cs` in the same order. -/
theorem C16_prefix_split [Inhabited T] (e : Char) (cs : List (Char × RadixTreeNode T))
    (s k : List Char) (f : Bool) (w v : T) (rpc : List Char) (rst : Bool) (rval : T)
    (he : s.head? = some e) (hk : k ≠ []) (hpre : k <+: s) (hlt : k.length < s.length) :
    ∃ b ss, s = k ++ b :: ss ∧
      UpsertString ⟨some (.mk [(e, .mk cs s f w)] rpc rst rval)⟩ k v
        = (.ok (), ⟨some (.mk [(e, .mk [(b, .mk cs (b :: ss) f w)] k true v)] rpc rst rval)⟩) := by
  obtain ⟨s', rfl⟩ := hpre
  obtain ⟨e0, pre, rfl⟩ := List.exists_cons_of_ne_nil hk
  simp only [List.cons_append, List.head?_cons, Option.some.injEq] at he
  subst he
  cases s' with
  | nil => simp at hlt
  | cons b ss =>
    exact ⟨b, ss, rfl, UpsertString_prefix_split e0 pre ss b cs f w v rpc rst rval⟩

theorem C16_prefix_split_witness :
    "testing".toList.head? = some 't' ∧ "test".toList ≠ []
      ∧ "test".toList <+: "testing".toList
      ∧ "test".toList.length < "testing".toList.length
      ∧ ∃ b ss, "testing".toList = "test".toList ++ b :: ss
        ∧ UpsertString ⟨some (.mk [('t', .mk [] "testing".toList true 1)] [] false 0)⟩
            "test".toList 2
          = (.ok (), ⟨some (.mk [('t', .mk [(b, .mk [] (b :: ss) true 1)] "test".toList true 2)]
              [] false 0)⟩) :=
  ⟨rfl, by decide, ⟨"ing".toList, rfl⟩, by decide,
    C16_prefix_split 't' [] "testing".toList "test".toList true 1 2 [] false 0 rfl (by decide)
      ⟨"ing".toList, rfl⟩ (by decide)⟩

/-- C17. First insertion: for every non-empty key `k` (first symbol `c`, rest
`cs`) and value `v`, `UpsertString(k, v)` on the empty tree (`root_` null)
completes and produces a root with empty `path_content_`, `is_stop_ = false`
and exactly one child, stored under the edge `k[0]`: a childless node with
`path_content_ = k`, `is_stop_ = true` and value `v`. -/
theorem C17_first_insertion [Inhabited T] (c : Char) (cs : List Char) (v : T) :
    UpsertString Tree.empty (c :: cs) v
      = (.ok (), ⟨some (.mk [(c, .mk [] (c :: cs) true v)] [] false default)⟩) :=
  rfl

/-! ## Properties of every node kept by the upsert loop -/

mutual
/-- A property of single nodes that holds for a new leaf and is kept by the
update, by both splits and by the lookup in `search_path_` holds in every node
of the subtree after a round of the upsert loop if it did before. -/
theorem forall_nodes_upsertNode [Inhabited T] (Q : RadixTreeNode T → Prop)
    (hleaf : ∀ c cs v, Q (newLeaf (c :: cs) v))
    (hupd : ∀ sp pc st val v, Q (.mk sp pc st val) → Q (.mk sp pc true v))
    (hpre : ∀ sp pre x xs st val v, Q (.mk sp (pre ++ x :: xs) st val) →
      Q (.mk sp (x :: xs) st val) ∧ Q (.mk [(x, .mk sp (x :: xs) st val)] pre true v))
    (hbr : ∀ sp pre c cs x xs st val v, c ≠ x → Q (.mk sp (pre ++ x :: xs) st val) →
      Q (.mk sp (x :: xs) st val)
        ∧ Q (.mk [(c, newLeaf (c :: cs) v), (x, .mk sp (x :: xs) st val)] pre false default))
    (hdesc : ∀ sp pc st val c cs v, Q (.mk sp pc st val) →
      Q (.mk (upsertPath sp c cs v) pc st val)) :
    ∀ (n : RadixTreeNode T) (key : List Char) (v : T), (∀ m ∈ n.nodes, Q m) →
      ∀ m ∈ (upsertNode n key v).nodes, Q m
  | .mk sp pc st val, key, v, h => by
    have hd := matchLoop_diverge key pc
    have hc := matchLoop_content key pc
    have hroot : Q (.mk sp pc st val) := h _ (by simp [RadixTreeNode.nodes])
    have hsub : ∀ m ∈ pathNodes sp, Q m := fun m hm => h m (by simp [RadixTreeNode.nodes, hm])
    rw [upsertNode]
    generalize matchLoop key pc = r at hd hc
    obtain ⟨pre, kq, rest⟩ := r
    simp only at hc
    subst hc
    cases kq with
    | nil =>
      cases rest with
      | nil =>
        intro m hm
        simp only [RadixTreeNode.nodes, List.mem_cons] at hm
        rcases hm with rfl | hm
        · exact hupd _ _ _ _ _ hroot
        · exact hsub m hm
      | cons x xs =>
        intro m hm
        simp only [RadixTreeNode.nodes, pathNodes, List.mem_cons, List.append_nil] at hm
        rcases hm with rfl | rfl | hm
        · exact (hpre _ _ _ _ _ _ v hroot).2
        · exact (hpre _ _ _ _ _ _ v hroot).1
        · exact hsub m hm
    | cons c cs =>
      cases rest with
      | nil =>
        intro m hm
        simp only [RadixTreeNode.nodes, List.mem_cons] at hm
        rcases hm with rfl | hm
        · exact hdesc _ _ _ _ _ _ _ hroot
        · exact forall_nodes_upsertPath Q hleaf hupd hpre hbr hdesc sp c cs v hsub m hm
      | cons x xs =>
        have hcx : c ≠ x := hd c x cs xs rfl rfl
        intro m hm
        simp only [RadixTreeNode.nodes, pathNodes, newLeaf, List.mem_cons, List.append_nil,
          List.cons_append, List.nil_append] at hm
        rcases hm with rfl | rfl | rfl | hm
        · exact (hbr _ _ _ cs _ _ _ _ v hcx hroot).2
        · exact hleaf c cs v
        · exact (hbr _ _ _ cs _ _ _ _ v hcx hroot).1
        · exact hsub m hm
theorem forall_nodes_upsertPath [Inhabited T] (Q : RadixTreeNode T → Prop)
    (hleaf : ∀ c cs v, Q (newLeaf (c :: cs) v))
    (hupd : ∀ sp pc st val v, Q (.mk sp pc st val) → Q (.mk sp pc true v))
    (hpre : ∀ sp pre x xs st val v, Q (.mk sp (pre ++ x :: xs) st val) →
      Q (.mk sp (x :: xs) st val) ∧ Q (.mk [(x, .mk sp (x :: xs) st val)] pre true v))
    (hbr : ∀ sp pre c cs x xs st val v, c ≠ x → Q (.mk sp (pre ++ x :: xs) st val) →
      Q (.mk sp (x :: xs) st val)
        ∧ Q (.mk [(c, newLeaf (c :: cs) v), (x, .mk sp (x :: xs) st val)] pre false default))
    (hdesc : ∀ sp pc st val c cs v, Q (.mk sp pc st val) →
      Q (.mk (upsertPath sp c cs v) pc st val)) :
    ∀ (sp : List (Char × RadixTreeNode T)) (c : Char) (cs : List Char) (v : T),
      (∀ m ∈ pathNodes sp, Q m) → ∀ m ∈ pathNodes (upsertPath sp c cs v), Q m
  | [], c, cs, v, _ => by
    intro m hm
    simp only [upsertPath, pathNodes, newLeaf, RadixTreeNode.nodes, List.append_nil,
      List.mem_singleton] at hm
    subst hm
    exact hleaf c cs v
  | (e, n) :: rest, c, cs, v, h => by
    have hn : ∀ m ∈ n.nodes, Q m := fun m hm => h m (by simp [pathNodes, hm])
    have hrest : ∀ m ∈ pathNodes rest, Q m := fun m hm => h m (by simp [pathNodes, hm])
    rw [upsertPath]
    by_cases hec : e = c
    · rw [if_pos hec]
      intro m hm
      simp only [pathNodes, List.mem_append] at hm
      rcases hm with hm | hm
      · exact forall_nodes_upsertNode Q hleaf hupd hpre hbr hdesc n (c :: cs) v hn m hm
      · exact hrest m hm
    · rw [if_neg hec]
      intro m hm
      simp only [pathNodes, List.mem_append] at hm
      rcases hm with hm | hm
      · exact hn m hm
      · exact forall_nodes_upsertPath Q hleaf hupd hpre hbr hdesc rest c cs v hrest m hm
end

/-- The same for the nodes of a tree other than the root, over one `UpsertString`. -/
theorem forall_inner_UpsertString [Inhabited T] (Q : RadixTreeNode T → Prop)
    (hleaf : ∀ c cs v, Q (newLeaf (c :: cs) v))
    (hupd : ∀ sp pc st val v, Q (.mk sp pc st val) → Q (.mk sp pc true v))
    (hpre : ∀ sp pre x xs st val v, Q (.mk sp (pre ++ x :: xs) st val) →
      Q (.mk sp (x :: xs) st val) ∧ Q (.mk [(x, .mk sp (x :: xs) st val)] pre true v))
    (hbr : ∀ sp pre c cs x xs st val v, c ≠ x → Q (.mk sp (pre ++ x :: xs) st val) →
      Q (.mk sp (x :: xs) st val)
        ∧ Q (.mk [(c, newLeaf (c :: cs) v), (x, .mk sp (x :: xs) st val)] pre false default))
    (hdesc : ∀ sp pc st val c cs v, Q (.mk sp pc st val) →
      Q (.mk (upsertPath sp c cs v) pc st val))
    (t : Tree T) (k : List Char) (v : T) (h : ∀ m ∈ t.inner, Q m) :
    ∀ m ∈ (UpsertString t k v).2.inner, Q m := by
  obtain ⟨root⟩ := t
  cases k with
  | nil => exact h
  | cons c cs =>
    cases root with
    | none =>
      intro m hm
      simp only [UpsertString, Tree.inner, RadixTreeNode.search_path_, pathNodes, newLeaf,
        RadixTreeNode.nodes, List.append_nil, List.mem_singleton] at hm
      subst hm
      exact hleaf c cs v
    | some r =>
      obtain ⟨sp, pc, st, val⟩ := r
      exact forall_nodes_upsertPath Q hleaf hupd hpre hbr hdesc sp c cs v h

/-- The same for all the nodes of a tree, when the property also holds for the
root the first insertion makes. -/
theorem forall_nodes_UpsertString [Inhabited T] (Q : RadixTreeNode T → Prop)
    (hleaf : ∀ c cs v, Q (newLeaf (c :: cs) v))
    (hupd : ∀ sp pc st val v, Q (.mk sp pc st val) → Q (.mk sp pc true v))
    (hpre : ∀ sp pre x xs st val v, Q (.mk sp (pre ++ x :: xs) st val) →
      Q (.mk sp (x :: xs) st val) ∧ Q (.mk [(x, .mk sp (x :: xs) st val)] pre true v))
    (hbr : ∀ sp pre c cs x xs st val v, c ≠ x → Q (.mk sp (pre ++ x :: xs) st val) →
      Q (.mk sp (x :: xs) st val)
        ∧ Q (.mk [(c, newLeaf (c :: cs) v), (x, .mk sp (x :: xs) st val)] pre false default))
    (hdesc : ∀ sp pc st val c cs v, Q (.mk sp pc st val) →
      Q (.mk (upsertPath sp c cs v) pc st val))
    (hinit : ∀ c cs v, Q (.mk [(c, newLeaf (c :: cs) v)] [] false default))
    (t : Tree T) (k : List Char) (v : T) (h : ∀ m ∈ t.nodes, Q m) :
    ∀ m ∈ (UpsertString t k v).2.nodes, Q m := by
  obtain ⟨root⟩ := t
  cases k with
  | nil => exact h
  | cons c cs =>
    cases root with
    | none =>
      intro m hm
      simp only [UpsertString, Tree.nodes, RadixTreeNode.nodes, pathNodes, newLeaf,
        List.append_nil, List.mem_cons, List.mem_singleton, List.not_mem_nil, or_false] at hm
      rcases hm with rfl | rfl
      · exact hinit c cs v
      · exact hleaf c cs v
    | some r =>
      obtain ⟨sp, pc, st, val⟩ := r
      have hroot : Q (.mk sp pc st val) := h _ (by simp [Tree.nodes, RadixTreeNode.nodes])
      have hsub : ∀ m ∈ pathNodes sp, Q m := fun m hm =>
        h m (by simp [Tree.nodes, RadixTreeNode.nodes, hm])
      intro m hm
      simp only [UpsertString, Tree.nodes, RadixTreeNode.nodes, List.mem_cons] at hm
      rcases hm with rfl | hm
      · exact hdesc _ _ _ _ _ _ _ hroot
      · exact forall_nodes_upsertPath Q hleaf hupd hpre hbr hdesc sp c cs v hsub m hm

theorem forall_inner_upsertAll [Inhabited T] (Q : RadixTreeNode T → Prop)
    (hleaf : ∀ c cs v, Q (newLeaf (c :: cs) v))
    (hupd : ∀ sp pc st val v, Q (.mk sp pc st val) → Q (.mk sp pc true v))
    (hpre : ∀ sp pre x xs st val v, Q (.mk sp (pre ++ x :: xs) st val) →
      Q (.mk sp (x :: xs) st val) ∧ Q (.mk [(x, .mk sp (x :: xs) st val)] pre true v))
    (hbr : ∀ sp pre c cs x xs st val v, c ≠ x → Q (.mk sp (pre ++ x :: xs) st val) →
      Q (.mk sp (x :: xs) st val)
        ∧ Q (.mk [(c, newLeaf (c :: cs) v), (x, .mk sp (x :: xs) st val)] pre false default))
    (hdesc : ∀ sp pc st val c cs v, Q (.mk sp pc st val) →
      Q (.mk (upsertPath sp c cs v) pc st val))
    (t : Tree T) (ops : List (List Char × T)) (h : ∀ m ∈ t.inner, Q m) :
    ∀ m ∈ (upsertAll t ops).inner, Q m := by
  induction ops generalizing t with
  | nil => exact h
  | cons op ops ih =>
    obtain ⟨k, v⟩ := op
    rw [upsertAll]
    exact ih _ (forall_inner_UpsertString Q hleaf hupd hpre hbr hdesc t k v h)

theorem forall_nodes_upsertAll [Inhabited T] (Q : RadixTreeNode T → Prop)
    (hleaf : ∀ c cs v, Q (newLeaf (c :: cs) v))
    (hupd : ∀ sp pc st val v, Q (.mk sp pc st val) → Q (.mk sp pc true v))
    (hpre : ∀ sp pre x xs st val v, Q (.mk sp (pre ++ x :: xs) st val) →
      Q (.mk sp (x :: xs) st val) ∧ Q (.mk [(x, .mk sp (x :: xs) st val)] pre true v))
    (hbr : ∀ sp pre c cs x xs st val v, c ≠ x → Q (.mk sp (pre ++ x :: xs) st val) →
      Q (.mk sp (x :: xs) st val)
        ∧ Q (.mk [(c, newLeaf (c :: cs) v), (x, .mk sp (x :: xs) st val)] pre false default))
    (hdesc : ∀ sp pc st val c cs v, Q (.mk sp pc st val) →
      Q (.mk (upsertPath sp c cs v) pc st val))
    (hinit : ∀ c cs v, Q (.mk [(c, newLeaf (c :: cs) v)] [] false default))
    (t : Tree T) (ops : List (List Char × T)) (h : ∀ m ∈ t.nodes, Q m) :
    ∀ m ∈ (upsertAll t ops).nodes, Q m := by
  induction ops generalizing t with
  | nil => exact h
  | cons op ops ih =>
    obtain ⟨k, v⟩ := op
    rw [upsertAll]
    exact ih _ (forall_nodes_UpsertString Q hleaf hupd hpre hbr hdesc hinit t k v h)

/-! ## The invariants of the data model -/

/-- A round of the upsert loop entered with a key whose front is the first
symbol of the content leaves that first symbol in place. -/
theorem head_upsertNode [Inhabited T] (n : RadixTreeNode T) (c : Char) (cs : List Char) (v : T)
    (h : n.path_content_.head? = some c) :
    (upsertNode n (c :: cs) v).path_content_.head? = some c := by
  obtain ⟨sp, pc, st, val⟩ := n
  cases pc with
  | nil => simp [RadixTreeNode.path_content_] at h
  | cons x xs =>
    simp only [RadixTreeNode.path_content_, List.head?_cons, Option.some.injEq] at h
    subst h
    rw [upsertNode]
    simp only [matchLoop, if_true]
    rcases matchLoop cs xs with ⟨pre, kq, rest⟩
    cases kq <;> cases rest <;> rfl

/-- The lookup of the upsert loop keeps every character of a `search_path_` the
first symbol of the content of its node. -/
theorem heads_upsertPath [Inhabited T] (sp : List (Char × RadixTreeNode T)) (c : Char)
    (cs : List Char) (v : T) (h : ∀ p ∈ sp, p.2.path_content_.head? = some p.1) :
    ∀ p ∈ upsertPath sp c cs v, p.2.path_content_.head? = some p.1 := by
  induction sp with
  | nil =>
    intro p hp
    simp only [upsertPath, List.mem_singleton] at hp
    subst hp
    rfl
  | cons q rest ih =>
    obtain ⟨e, n⟩ := q
    have hn : n.path_content_.head? = some e := h (e, n) (by simp)
    have hrest : ∀ p ∈ rest, p.2.path_content_.head? = some p.1 := fun p hp =>
      h p (by simp [hp])
    rw [upsertPath]
    by_cases hec : e = c
    · subst hec
      rw [if_pos rfl]
      intro p hp
      rcases List.mem_cons.1 hp with rfl | hp
      · exact head_upsertNode n e cs v hn
      · exact hrest p hp
    · rw [if_neg hec]
      intro p hp
      rcases List.mem_cons.1 hp with rfl | hp
      · exact hn
      · exact ih hrest p hp

theorem length_upsertPath [Inhabited T] (sp : List (Char × RadixTreeNode T)) (c : Char)
    (cs : List Char) (v : T) : sp.length ≤ (upsertPath sp c cs v).length := by
  induction sp with
  | nil => simp
  | cons q rest ih =>
    obtain ⟨e, n⟩ := q
    rw [upsertPath]
    split
    · simp
    · simpa using ih

/-- Below a `search_path_` whose characters are, in every node, the first
symbols of the contents, every content is non-empty. -/
theorem content_ne_nil_of_heads :
    ∀ (sp : List (Char × RadixTreeNode T)),
      (∀ p ∈ sp, p.2.path_content_.head? = some p.1) →
      (∀ m ∈ pathNodes sp, ∀ p ∈ m.search_path_, p.2.path_content_.head? = some p.1) →
      ∀ m ∈ pathNodes sp, m.path_content_ ≠ []
  | [], _, _ => by simp [pathNodes]
  | (e, .mk sp pc st val) :: rest, h, hsub => by
    intro m hm
    simp only [pathNodes, RadixTreeNode.nodes, List.cons_append, List.mem_cons,
      List.mem_append] at hm
    rcases hm with rfl | hm | hm
    · have := h (e, .mk sp pc st val) (by simp)
      intro hnil
      simp [RadixTreeNode.path_content_] at this hnil
      simp [hnil] at this
    · have hself := hsub (.mk sp pc st val) (by simp [pathNodes, RadixTreeNode.nodes])
      exact content_ne_nil_of_heads sp hself
        (fun m hm => hsub m (by simp [pathNodes, RadixTreeNode.nodes, hm])) m hm
    · exact content_ne_nil_of_heads rest (fun p hp => h p (by simp [hp]))
        (fun m hm => hsub m (by simp [pathNodes, hm])) m hm

/-- After any sequence of calls from the empty tree every character of every
`search_path_` is the first symbol of the content of its node. -/
theorem heads_upsertAll_empty [Inhabited T] (ops : List (List Char × T)) :
    ∀ n ∈ (upsertAll Tree.empty ops).nodes,
      ∀ p ∈ n.search_path_, p.2.path_content_.head? = some p.1 := by
  apply forall_nodes_upsertAll
    (fun n => ∀ p ∈ n.search_path_, p.2.path_content_.head? = some p.1)
  · intro c cs v p hp
    simp [newLeaf, RadixTreeNode.search_path_] at hp
  · intro sp pc st val v h
    exact h
  · intro sp pre x xs st val v h
    refine ⟨h, ?_⟩
    intro p hp
    simp only [RadixTreeNode.search_path_, List.mem_singleton] at hp
    subst hp
    rfl
  · intro sp pre c cs x xs st val v _ h
    refine ⟨h, ?_⟩
    intro p hp
    simp only [RadixTreeNode.search_path_, List.mem_cons, List.not_mem_nil, or_false] at hp
    rcases hp with rfl | rfl <;> rfl
  · intro sp pc st val c cs v h
    exact heads_upsertPath sp c cs v h
  · intro c cs v p hp
    simp only [RadixTreeNode.search_path_, List.mem_singleton] at hp
    subst hp
    rfl
  · simp [Tree.nodes, Tree.empty]

/-- After any sequence of calls from the empty tree every node below the root
that is not a stop has at least two children. -/
theorem branching_upsertAll_empty [Inhabited T] (ops : List (List Char × T)) :
    ∀ n ∈ (upsertAll Tree.empty ops).inner,
      n.is_stop_ = false → 2 ≤ n.search_path_.length := by
  apply forall_inner_upsertAll (fun n => n.is_stop_ = false → 2 ≤ n.search_path_.length)
  · intro c cs v h
    simp [newLeaf, RadixTreeNode.is_stop_] at h
  · intro sp pc st val v _ h
    simp [RadixTreeNode.is_stop_] at h
  · intro sp pre x xs st val v h
    refine ⟨h, ?_⟩
    intro h'
    simp [RadixTreeNode.is_stop_] at h'
  · intro sp pre c cs x xs st val v _ h
    refine ⟨h, ?_⟩
    intro _
    simp [RadixTreeNode.search_path_]
  · intro sp pc st val c cs v h hst
    exact le_trans (h hst) (length_upsertPath sp c cs v)
  · simp [Tree.inner, Tree.empty]

/-- After any sequence of calls from the empty tree every node that is not a
stop holds the default value. -/
theorem default_upsertAll_empty [Inhabited T] (ops : List (List Char × T)) :
    ∀ n ∈ (upsertAll Tree.empty ops).nodes, n.is_stop_ = false → n.value_ = default := by
  apply forall_nodes_upsertAll (fun n => n.is_stop_ = false → n.value_ = default)
  · intro c cs v h
    simp [newLeaf, RadixTreeNode.is_stop_] at h
  · intro sp pc st val v _ h
    simp [RadixTreeNode.is_stop_] at h
  · intro sp pre x xs st val v h
    refine ⟨h, ?_⟩
    intro h'
    simp [RadixTreeNode.is_stop_] at h'
  · intro sp pre c cs x xs st val v _ h
    refine ⟨h, ?_⟩
    intro _
    rfl
  · intro sp pc st val c cs v h
    exact h
  · intro c cs v _
    rfl
  · simp [Tree.nodes, Tree.empty]

theorem inner_subset_nodes (t : Tree T) : ∀ m ∈ t.inner, m ∈ t.nodes := by
  obtain ⟨root⟩ := t
  cases root with
  | none => simp [Tree.inner]
  | some r =>
    obtain ⟨sp, pc, st, val⟩ := r
    intro m hm
    simp only [Tree.inner, RadixTreeNode.search_path_] at hm
    simp [Tree.nodes, RadixTreeNode.nodes, hm]

/-- After any sequence of calls from the empty tree every node below the root
has a non-empty content. -/
theorem content_ne_nil_upsertAll_empty [Inhabited T] (ops : List (List Char × T)) :
    ∀ n ∈ (upsertAll Tree.empty ops).inner, n.path_content_ ≠ [] := by
  have h := heads_upsertAll_empty ops
  generalize upsertAll Tree.empty ops = t at h
  obtain ⟨root⟩ := t
  cases root with
  | none => simp [Tree.inner]
  | some r =>
    obtain ⟨sp, pc, st, val⟩ := r
    simp only [Tree.inner, RadixTreeNode.search_path_]
    apply content_ne_nil_of_heads sp
    · exact h (.mk sp pc st val) (by simp [Tree.nodes, RadixTreeNode.nodes])
    · intro m hm
      exact h m (by simp [Tree.nodes, RadixTreeNode.nodes, hm])

/-- C12. Segment/edge consistency: after any finite sequence of `UpsertString`
calls starting from the empty tree, every non-root node has a non-empty
`path_content_`, and for every (edge symbol, child) pair in the `search_path_`
of any node (root included) the edge symbol is the first character of the
child's `path_content_`. -/
theorem C12_segment_edge_consistency [Inhabited T] (ops : List (List Char × T)) :
    (∀ n ∈ (upsertAll Tree.empty ops).inner, n.path_content_ ≠ [])
      ∧ ∀ n ∈ (upsertAll Tree.empty ops).nodes,
          ∀ p ∈ n.search_path_, p.2.path_content_.head? = some p.1 :=
  ⟨content_ne_nil_upsertAll_empty ops, heads_upsertAll_empty ops⟩

/-- C13. Compression: after any finite sequence of `UpsertString` calls starting
from the empty tree, every non-root node with `is_stop_ = false` has at least
two children. -/
theorem C13_compression [Inhabited T] (ops : List (List Char × T)) :
    ∀ n ∈ (upsertAll Tree.empty ops).inner, n.is_stop_ = false → 2 ≤ n.search_path_.length :=
  branching_upsertAll_empty ops

/-- C18. No value is retained in a branch node: after any finite sequence of
`UpsertString` calls starting from the empty tree, every node with
`is_stop_ = false` (the root and every branch node) holds the default value `T{}`. -/
theorem C18_branch_value_default [Inhabited T] (ops : List (List Char × T)) :
    ∀ n ∈ (upsertAll Tree.empty ops).nodes, n.is_stop_ = false → n.value_ = default :=
  default_upsertAll_empty ops

/-! ## Root-to-node concatenations -/

mutual
/-- The concatenation down to a node of a subtree continues the concatenation
down to the top of the subtree. -/
theorem entries_extend :
    ∀ (n : RadixTreeNode T) (acc : List Char) (x : List Char × Bool × T), x ∈ n.entries acc →
      ∃ r, x.1 = acc ++ n.path_content_ ++ r
  | .mk sp pc st val, acc, x, h => by
    simp only [RadixTreeNode.entries, List.mem_cons] at h
    rcases h with rfl | h
    · exact ⟨[], by simp [RadixTreeNode.path_content_]⟩
    · obtain ⟨p, _, r, hr⟩ := pathEntries_extend sp (acc ++ pc) x h
      exact ⟨p.2.path_content_ ++ r, by simp [RadixTreeNode.path_content_, hr]⟩
theorem pathEntries_extend :
    ∀ (sp : List (Char × RadixTreeNode T)) (acc : List Char) (x : List Char × Bool × T),
      x ∈ pathEntries sp acc → ∃ p ∈ sp, ∃ r, x.1 = acc ++ p.2.path_content_ ++ r
  | [], acc, x, h => by simp [pathEntries] at h
  | (e, n) :: rest, acc, x, h => by
    simp only [pathEntries, List.mem_append] at h
    rcases h with h | h
    · obtain ⟨r, hr⟩ := entries_extend n acc x h
      exact ⟨(e, n), by simp, r, hr⟩
    · obtain ⟨p, hp, r, hr⟩ := pathEntries_extend rest acc x h
      exact ⟨p, by simp [hp], r, hr⟩
end

/-- With every character of the `search_path_` the first symbol of its node's
content, the concatenations below it continue with one of these characters. -/
theorem pathEntries_edge (sp : List (Char × RadixTreeNode T)) (acc : List Char)
    (x : List Char × Bool × T) (hh : ∀ p ∈ sp, p.2.path_content_.head? = some p.1)
    (h : x ∈ pathEntries sp acc) : ∃ e ∈ sp.map Prod.fst, ∃ r, x.1 = acc ++ e :: r := by
  obtain ⟨p, hp, r, hr⟩ := pathEntries_extend sp acc x h
  have hhead := hh p hp
  cases hpc : p.2.path_content_ with
  | nil => simp [hpc] at hhead
  | cons y ys =>
    simp only [hpc, List.head?_cons, Option.some.injEq] at hhead
    subst hhead
    exact ⟨p.1, List.mem_map.2 ⟨p, hp, rfl⟩, ys ++ r, by simp [hr, hpc]⟩

theorem entries_edge (n : RadixTreeNode T) (e : Char) (acc : List Char)
    (x : List Char × Bool × T) (hh : n.path_content_.head? = some e)
    (h : x ∈ n.entries acc) : ∃ r, x.1 = acc ++ e :: r := by
  obtain ⟨r, hr⟩ := entries_extend n acc x h
  cases hpc : n.path_content_ with
  | nil => simp [hpc] at hh
  | cons y ys =>
    simp only [hpc, List.head?_cons, Option.some.injEq] at hh
    subst hh
    exact ⟨ys ++ r, by simp [hr, hpc]⟩

mutual
/-- With distinct edge symbols that are the first symbols of the contents, the
nodes of a subtree have pairwise distinct concatenations. -/
theorem entries_nodup :
    ∀ (n : RadixTreeNode T) (acc : List Char), (∀ m ∈ n.nodes, m.edges.Nodup) →
      (∀ m ∈ n.nodes, ∀ p ∈ m.search_path_, p.2.path_content_.head? = some p.1) →
      ((n.entries acc).map Prod.fst).Nodup
  | .mk sp pc st val, acc, hN, hH => by
    have hself : ∀ p ∈ sp, p.2.path_content_.head? = some p.1 :=
      hH (.mk sp pc st val) (by simp [RadixTreeNode.nodes])
    simp only [RadixTreeNode.entries, List.map_cons, List.nodup_cons]
    constructor
    · intro hmem
      obtain ⟨x, hx, hx1⟩ := List.mem_map.1 hmem
      obtain ⟨e, _, r, hr⟩ := pathEntries_edge sp (acc ++ pc) x hself hx
      rw [hx1] at hr
      have := congrArg List.length hr
      simp at this
    · exact pathEntries_nodup sp (acc ++ pc)
        (hN (.mk sp pc st val) (by simp [RadixTreeNode.nodes])) hself
        (fun m hm => hN m (by simp [RadixTreeNode.nodes, hm]))
        (fun m hm => hH m (by simp [RadixTreeNode.nodes, hm]))
theorem pathEntries_nodup :
    ∀ (sp : List (Char × RadixTreeNode T)) (acc : List Char), (sp.map Prod.fst).Nodup →
      (∀ p ∈ sp, p.2.path_content_.head? = some p.1) →
      (∀ m ∈ pathNodes sp, m.edges.Nodup) →
      (∀ m ∈ pathNodes sp, ∀ p ∈ m.search_path_, p.2.path_content_.head? = some p.1) →
      ((pathEntries sp acc).map Prod.fst).Nodup
  | [], acc, _, _, _, _ => by simp [pathEntries]
  | (e, n) :: rest, acc, hE, hS, hN, hH => by
    simp only [List.map_cons, List.nodup_cons] at hE
    simp only [pathEntries, List.map_append]
    rw [List.nodup_append]
    refine ⟨?_, ?_, ?_⟩
    · exact entries_nodup n acc (fun m hm => hN m (by simp [pathNodes, hm]))
        (fun m hm => hH m (by simp [pathNodes, hm]))
    · exact pathEntries_nodup rest acc hE.2 (fun p hp => hS p (by simp [hp]))
        (fun m hm => hN m (by simp [pathNodes, hm]))
        (fun m hm => hH m (by simp [pathNodes, hm]))
    · intro k hk1 hk2
      obtain ⟨x, hx, hx1⟩ := List.mem_map.1 hk1
      obtain ⟨y, hy, hy1⟩ := List.mem_map.1 hk2
      obtain ⟨r, hr⟩ := entries_edge n e acc x (hS (e, n) (by simp)) hx
      obtain ⟨e', he', r', hr'⟩ := pathEntries_edge rest acc y
        (fun p hp => hS p (by simp [hp])) hy
      rw [hx1] at hr
      rw [hy1, hr] at hr'
      simp only [List.append_cancel_left_eq, List.cons.injEq] at hr'
      rw [hr'.1] at hE
      exact hE.1 he'
end

mutual
/-- With distinct edge symbols that are the first symbols of the contents, the
search loop finds the value of every stop node under its concatenation. -/
theorem searchNode_of_entry :
    ∀ (n : RadixTreeNode T) (acc q : List Char) (v : T), (∀ m ∈ n.nodes, m.edges.Nodup) →
      (∀ m ∈ n.nodes, ∀ p ∈ m.search_path_, p.2.path_content_.head? = some p.1) →
      (acc ++ q, true, v) ∈ n.entries acc → searchNode n q = .ok v
  | .mk sp pc st val, acc, q, v, hN, hH, h => by
    have hself : ∀ p ∈ sp, p.2.path_content_.head? = some p.1 :=
      hH (.mk sp pc st val) (by simp [RadixTreeNode.nodes])
    simp only [RadixTreeNode.entries, List.mem_cons] at h
    rcases h with h | h
    · simp only [Prod.mk.injEq, List.append_cancel_left_eq] at h
      obtain ⟨rfl, rfl, rfl⟩ := h
      simp [searchNode_self]
    · obtain ⟨e, _, r, hr⟩ := pathEntries_edge sp (acc ++ pc) _ hself h
      simp only [List.append_assoc, List.append_cancel_left_eq] at hr
      subst hr
      rw [searchNode_append]
      rw [← List.append_assoc] at h
      exact searchPath_of_entry sp (acc ++ pc) e r v
        (hN (.mk sp pc st val) (by simp [RadixTreeNode.nodes])) hself
        (fun m hm => hN m (by simp [RadixTreeNode.nodes, hm]))
        (fun m hm => hH m (by simp [RadixTreeNode.nodes, hm])) h
theorem searchPath_of_entry :
    ∀ (sp : List (Char × RadixTreeNode T)) (acc : List Char) (c : Char) (cs : List Char) (v : T),
      (sp.map Prod.fst).Nodup →
      (∀ p ∈ sp, p.2.path_content_.head? = some p.1) →
      (∀ m ∈ pathNodes sp, m.edges.Nodup) →
      (∀ m ∈ pathNodes sp, ∀ p ∈ m.search_path_, p.2.path_content_.head? = some p.1) →
      (acc ++ c :: cs, true, v) ∈ pathEntries sp acc → searchPath sp c cs = .ok v
  | [], acc, c, cs, v, _, _, _, _, h => by simp [pathEntries] at h
  | (e, n) :: rest, acc, c, cs, v, hE, hS, hN, hH, h => by
    simp only [List.map_cons, List.nodup_cons] at hE
    simp only [pathEntries, List.mem_append] at h
    rw [searchPath]
    rcases h with h | h
    · obtain ⟨r, hr⟩ := entries_edge n e acc _ (hS (e, n) (by simp)) h
      simp only [List.append_cancel_left_eq, List.cons.injEq] at hr
      rw [if_pos hr.1.symm]
      exact searchNode_of_entry n acc (c :: cs) v (fun m hm => hN m (by simp [pathNodes, hm]))
        (fun m hm => hH m (by simp [pathNodes, hm])) h
    · obtain ⟨e', he', r, hr⟩ := pathEntries_edge rest acc _ (fun p hp => hS p (by simp [hp])) h
      simp only [List.append_cancel_left_eq, List.cons.injEq] at hr
      have hne : e ≠ c := by
        rintro rfl
        rw [hr.1] at hE
        exact hE.1 he'
      rw [if_neg hne]
      exact searchPath_of_entry rest acc c cs v hE.2 (fun p hp => hS p (by simp [hp]))
        (fun m hm => hN m (by simp [pathNodes, hm]))
        (fun m hm => hH m (by simp [pathNodes, hm])) h
end

mutual
/-- A value the search loop returns is the value of a stop node whose
concatenation is the key. -/
theorem entry_of_searchNode :
    ∀ (n : RadixTreeNode T) (acc q : List Char) (v : T), searchNode n q = .ok v →
      (acc ++ q, true, v) ∈ n.entries acc
  | .mk sp pc st val, acc, q, v, h => by
    have hk := matchLoop_key q pc
    have hc := matchLoop_content q pc
    rw [searchNode] at h
    generalize matchLoop q pc = r at h hk hc
    obtain ⟨pre, kq, rest⟩ := r
    simp only at hk hc
    subst hk hc
    cases kq with
    | nil =>
      cases rest with
      | nil =>
        cases st with
        | false => simp at h
        | true =>
          simp only [if_true, Except.ok.injEq] at h
          subst h
          simp [RadixTreeNode.entries]
      | cons x xs => simp at h
    | cons c cs =>
      cases rest with
      | nil =>
        simp only at h
        have := entry_of_searchPath sp (acc ++ pre) c cs v h
        simp only [RadixTreeNode.entries, List.append_nil, List.mem_cons]
        right
        rw [← List.append_assoc]
        exact this
      | cons x xs => simp at h
theorem entry_of_searchPath :
    ∀ (sp : List (Char × RadixTreeNode T)) (acc : List Char) (c : Char) (cs : List Char) (v : T),
      searchPath sp c cs = .ok v → (acc ++ c :: cs, true, v) ∈ pathEntries sp acc
  | [], acc, c, cs, v, h => by simp [searchPath] at h
  | (e, n) :: rest, acc, c, cs, v, h => by
    rw [searchPath] at h
    simp only [pathEntries, List.mem_append]
    by_cases hec : e = c
    · rw [if_pos hec] at h
      exact Or.inl (entry_of_searchNode n acc (c :: cs) v h)
    · rw [if_neg hec] at h
      exact Or.inr (entry_of_searchPath rest acc c cs v h)
end

/-! ## The set of stored keys -/

/-- The root is absent or is the node the first insertion made, but for its children. -/
theorem root_UpsertString [Inhabited T] (t : Tree T) (k : List Char) (v : T)
    (h : t.root_ = none ∨ ∃ sp, t.root_ = some (.mk sp [] false default)) :
    (UpsertString t k v).2.root_ = none
      ∨ ∃ sp, (UpsertString t k v).2.root_ = some (.mk sp [] false default) := by
  obtain ⟨root⟩ := t
  cases k with
  | nil => exact h
  | cons c cs =>
    rcases h with h | ⟨sp, h⟩
    · simp only at h
      subst h
      exact Or.inr ⟨_, rfl⟩
    · simp only at h
      subst h
      exact Or.inr ⟨_, rfl⟩

theorem root_upsertAll [Inhabited T] (t : Tree T) (ops : List (List Char × T))
    (h : t.root_ = none ∨ ∃ sp, t.root_ = some (.mk sp [] false default)) :
    (upsertAll t ops).root_ = none
      ∨ ∃ sp, (upsertAll t ops).root_ = some (.mk sp [] false default) := by
  induction ops generalizing t with
  | nil => exact h
  | cons op ops ih =>
    obtain ⟨k, v⟩ := op
    rw [upsertAll]
    exact ih _ (root_UpsertString t k v h)

theorem mem_keys_iff (t : Tree T) (k : List Char) :
    k ∈ t.keys ↔ ∃ v, (k, true, v) ∈ t.entries := by
  simp only [Tree.keys, List.mem_map, List.mem_filter]
  constructor
  · rintro ⟨⟨k', st, v⟩, ⟨hx, hst⟩, rfl⟩
    simp only at hst
    subst hst
    exact ⟨v, hx⟩
  · rintro ⟨v, hv⟩
    exact ⟨(k, true, v), ⟨hv, rfl⟩, rfl⟩

/-- In a tree with distinct edge symbols that are the first symbols of the
contents, the stop nodes have pairwise distinct concatenations. -/
theorem keys_nodup (t : Tree T) (hN : ∀ m ∈ t.nodes, m.edges.Nodup)
    (hH : ∀ m ∈ t.nodes, ∀ p ∈ m.search_path_, p.2.path_content_.head? = some p.1) :
    t.keys.Nodup := by
  obtain ⟨root⟩ := t
  cases root with
  | none => simp [Tree.keys, Tree.entries]
  | some r =>
    have h := entries_nodup r [] hN hH
    exact List.Nodup.sublist ((List.filter_sublist _).map _) h

/-- In such a tree under a root without content that is not a stop, the stop
nodes are what `SearchByKey` finds: their concatenations with their values. -/
theorem entry_iff_SearchByKey (sp : List (Char × RadixTreeNode T)) (rval : T)
    (hN : ∀ m ∈ (RadixTreeNode.mk sp [] false rval).nodes, m.edges.Nodup)
    (hH : ∀ m ∈ (RadixTreeNode.mk sp [] false rval).nodes,
      ∀ p ∈ m.search_path_, p.2.path_content_.head? = some p.1)
    (k : List Char) (v : T) :
    (k, true, v) ∈ (⟨some (.mk sp [] false rval)⟩ : Tree T).entries
      ↔ SearchByKey ⟨some (.mk sp [] false rval)⟩ k = .ok v := by
  have hself : ∀ p ∈ sp, p.2.path_content_.head? = some p.1 :=
    hH (.mk sp [] false rval) (by simp [RadixTreeNode.nodes])
  simp only [Tree.entries, RadixTreeNode.entries, List.append_nil, List.mem_cons, Prod.mk.injEq,
    Bool.true_eq_false, false_and, and_false, false_or]
  constructor
  · intro h
    obtain ⟨e, _, r, hr⟩ := pathEntries_edge sp [] _ hself h
    simp only [List.nil_append] at hr
    subst hr
    have hp := searchPath_of_entry sp [] e r v
      (hN (.mk sp [] false rval) (by simp [RadixTreeNode.nodes])) hself
      (fun m hm => hN m (by simp [RadixTreeNode.nodes, hm]))
      (fun m hm => hH m (by simp [RadixTreeNode.nodes, hm])) h
    rw [← toOption_eq_some, SearchByKey_root, hp, toOption_ok]
  · intro h
    cases k with
    | nil => simp [SearchByKey] at h
    | cons c cs =>
      rw [← toOption_eq_some, SearchByKey_root, toOption_eq_some] at h
      exact entry_of_searchPath sp [] c cs v h

mutual
theorem map_stop_entries :
    ∀ (n : RadixTreeNode T) (acc : List Char),
      (n.entries acc).map (fun x => x.2.1) = n.nodes.map (fun m => m.is_stop_)
  | .mk sp pc st val, acc => by
    simp only [RadixTreeNode.entries, RadixTreeNode.nodes, List.map_cons,
      RadixTreeNode.is_stop_, map_stop_pathEntries sp (acc ++ pc)]
theorem map_stop_pathEntries :
    ∀ (sp : List (Char × RadixTreeNode T)) (acc : List Char),
      (pathEntries sp acc).map (fun x => x.2.1) = (pathNodes sp).map (fun m => m.is_stop_)
  | [], _ => rfl
  | (_, n) :: rest, acc => by
    simp only [pathEntries, pathNodes, List.map_append, map_stop_entries n acc,
      map_stop_pathEntries rest acc]
end

/-- There is one key per stop node. -/
theorem length_keys (t : Tree T) : t.keys.length = t.stopCount := by
  obtain ⟨root⟩ := t
  cases root with
  | none => rfl
  | some r =>
    simp only [Tree.keys, Tree.stopCount, Tree.entries, Tree.nodes, List.length_map]
    rw [← List.countP_eq_length_filter]
    have h1 := List.countP_map (fun b : Bool => b) (fun x : List Char × Bool × T => x.2.1)
      (r.entries [])
    have h2 := List.countP_map (fun b : Bool => b) (fun m : RadixTreeNode T => m.is_stop_)
      r.nodes
    rw [map_stop_entries r []] at h1
    rw [h1] at h2
    exact h2

/-- A key that is found stays found (with some value) over further calls. -/
theorem found_upsertAll [Inhabited T] (t : Tree T) (ops : List (List Char × T)) (k : List Char)
    (h : ∃ v, SearchByKey t k = .ok v) : ∃ v, SearchByKey (upsertAll t ops) k = .ok v := by
  induction ops generalizing t with
  | nil => exact h
  | cons op ops ih =>
    obtain ⟨k0, v0⟩ := op
    rw [upsertAll]
    apply ih
    obtain ⟨v, hv⟩ := h
    have hk : k ≠ [] := by
      rintro rfl
      rw [SearchByKey_nil] at hv
      cases hv
    by_cases hk0 : k0 = []
    · subst hk0
      exact ⟨v, hv⟩
    · by_cases hkk : k = k0
      · subst hkk
        exact ⟨v0, SearchByKey_UpsertString_self t k v0 hk⟩
      · exact ⟨v, SearchByKey_UpsertString_of_ne t k0 k v0 v hk0 hkk hv⟩

/-- The keys found after a sequence of calls from the empty tree are the
non-empty keys of the calls. -/
theorem found_iff_upserted [Inhabited T] (ops : List (List Char × T)) (k : List Char) :
    (∃ v, SearchByKey (upsertAll Tree.empty ops) k = .ok v)
      ↔ k ≠ [] ∧ k ∈ ops.map Prod.fst := by
  constructor
  · rintro ⟨v, hv⟩
    have hk : k ≠ [] := by
      rintro rfl
      rw [SearchByKey_nil] at hv
      cases hv
    refine ⟨hk, ?_⟩
    rcases SearchByKey_upsertAll Tree.empty ops k v hv with ⟨pre, post, hops, _⟩ | ⟨hempty, _⟩
    · rw [hops]
      simp
    · cases k <;> simp [SearchByKey, Tree.empty] at hempty
  · rintro ⟨hk, hmem⟩
    obtain ⟨op, hop, rfl⟩ := List.mem_map.1 hmem
    obtain ⟨pre, post, rfl⟩ := List.append_of_mem hop
    rw [upsertAll_append, upsertAll]
    exact found_upsertAll _ post op.1 ⟨op.2, SearchByKey_UpsertString_self _ op.1 op.2 hk⟩

/-- The stop nodes of a tree built from the empty tree are the non-empty keys of
the calls. -/
theorem mem_keys_upsertAll_empty [Inhabited T] (ops : List (List Char × T)) (k : List Char) :
    k ∈ (upsertAll Tree.empty ops).keys ↔ k ≠ [] ∧ k ∈ ops.map Prod.fst := by
  rw [← found_iff_upserted, mem_keys_iff]
  have hN := edges_nodup_upsertAll Tree.empty ops (by simp [Tree.nodes, Tree.empty])
  have hH := heads_upsertAll_empty ops
  have hroot := root_upsertAll Tree.empty ops (Or.inl rfl)
  generalize upsertAll Tree.empty ops = t at hN hH hroot
  obtain ⟨root⟩ := t
  rcases hroot with h | ⟨sp, h⟩
  · simp only at h
    subst h
    constructor
    · rintro ⟨v, hv⟩
      simp [Tree.entries] at hv
    · rintro ⟨v, hv⟩
      cases k <;> simp [SearchByKey] at hv
  · simp only at h
    subst h
    exact exists_congr (fun v => entry_iff_SearchByKey sp default hN hH k v)

/-- C11. Key-set invariant: after any finite sequence of `UpsertString` calls
with non-empty keys starting from the empty tree, the concatenations of
`path_content_` along the root-to-node path of the nodes with `is_stop_ = true`
are pairwise distinct, they are exactly the keys that were upserted, and the
number of nodes with `is_stop_ = true` is the number of distinct upserted keys. -/
theorem C11_key_set [Inhabited T] (ops : List (List Char × T))
    (hops : ∀ op ∈ ops, op.1 ≠ []) :
    (upsertAll Tree.empty ops).keys.Nodup
      ∧ (∀ k, k ∈ (upsertAll Tree.empty ops).keys ↔ k ∈ ops.map Prod.fst)
      ∧ (upsertAll Tree.empty ops).stopCount = (ops.map Prod.fst).dedup.length := by
  have hnodup : (upsertAll Tree.empty ops).keys.Nodup :=
    keys_nodup _ (edges_nodup_upsertAll Tree.empty ops (by simp [Tree.nodes, Tree.empty]))
      (heads_upsertAll_empty ops)
  have hmem : ∀ k, k ∈ (upsertAll Tree.empty ops).keys ↔ k ∈ ops.map Prod.fst := by
    intro k
    rw [mem_keys_upsertAll_empty]
    constructor
    · exact fun h => h.2
    · intro h
      obtain ⟨op, hop, rfl⟩ := List.mem_map.1 h
      exact ⟨hops op hop, h⟩
  refine ⟨hnodup, hmem, ?_⟩
  rw [← length_keys]
  apply List.Perm.length_eq
  rw [List.perm_ext_iff_of_nodup hnodup (List.nodup_dedup _)]
  intro k
  rw [hmem, List.mem_dedup]

/-! ## Upsert of a stored key: what changes -/

mutual
/-- A round of the upsert loop for a key the search loop finds changes no
content, no stop flag and no `search_path_`. -/
theorem shape_upsertNode_of_found [Inhabited T] :
    ∀ (n : RadixTreeNode T) (key : List Char) (v w : T), searchNode n key = .ok w →
      (upsertNode n key v).shape = n.shape
  | .mk sp pc st val, key, v, w, h => by
    rw [searchNode] at h
    rw [upsertNode]
    generalize matchLoop key pc = r at h
    obtain ⟨pre, kq, rest⟩ := r
    cases kq with
    | nil =>
      cases rest with
      | nil =>
        cases st with
        | false => simp at h
        | true => rfl
      | cons x xs => simp at h
    | cons c cs =>
      cases rest with
      | nil =>
        simp only at h
        simp only [RadixTreeNode.shape, shape_upsertPath_of_found sp c cs v w h]
      | cons x xs => simp at h
theorem shape_upsertPath_of_found [Inhabited T] :
    ∀ (sp : List (Char × RadixTreeNode T)) (c : Char) (cs : List Char) (v w : T),
      searchPath sp c cs = .ok w → pathShape (upsertPath sp c cs v) = pathShape sp
  | [], c, cs, v, w, h => by simp [searchPath] at h
  | (e, n) :: rest, c, cs, v, w, h => by
    rw [searchPath] at h
    rw [upsertPath]
    by_cases hec : e = c
    · rw [if_pos hec] at h
      rw [if_pos hec]
      simp only [pathShape, shape_upsertNode_of_found n (c :: cs) v w h]
    · rw [if_neg hec] at h
      rw [if_neg hec]
      simp only [pathShape, shape_upsertPath_of_found rest c cs v w h]
end

mutual
/-- A round of the upsert loop with the value the search loop already finds
for the key changes nothing. -/
theorem upsertNode_of_found_same [Inhabited T] :
    ∀ (n : RadixTreeNode T) (key : List Char) (v : T), searchNode n key = .ok v →
      upsertNode n key v = n
  | .mk sp pc st val, key, v, h => by
    rw [searchNode] at h
    rw [upsertNode]
    generalize matchLoop key pc = r at h
    obtain ⟨pre, kq, rest⟩ := r
    cases kq with
    | nil =>
      cases rest with
      | nil =>
        cases st with
        | false => simp at h
        | true =>
          simp only [if_true, Except.ok.injEq] at h
          subst h
          rfl
      | cons x xs => simp at h
    | cons c cs =>
      cases rest with
      | nil =>
        simp only at h
        simp only [upsertPath_of_found_same sp c cs v h]
      | cons x xs => simp at h
theorem upsertPath_of_found_same [Inhabited T] :
    ∀ (sp : List (Char × RadixTreeNode T)) (c : Char) (cs : List Char) (v : T),
      searchPath sp c cs = .ok v → upsertPath sp c cs v = sp
  | [], c, cs, v, h => by simp [searchPath] at h
  | (e, n) :: rest, c, cs, v, h => by
    rw [searchPath] at h
    rw [upsertPath]
    by_cases hec : e = c
    · rw [if_pos hec] at h
      rw [if_pos hec, upsertNode_of_found_same n (c :: cs) v h]
    · rw [if_neg hec] at h
      rw [if_neg hec, upsertPath_of_found_same rest c cs v h]
end

/-- What `SearchByKey` returns is what the loop finds from the root. -/
theorem searchPath_of_SearchByKey (sp : List (Char × RadixTreeNode T)) (pc : List Char)
    (st : Bool) (val : T) (c : Char) (cs : List Char) (w : T)
    (h : SearchByKey ⟨some (.mk sp pc st val)⟩ (c :: cs) = .ok w) :
    searchPath sp c cs = .ok w := by
  rw [← toOption_eq_some, SearchByKey_root, toOption_eq_some] at h
  exact h

theorem shape_UpsertString_of_found [Inhabited T] (t : Tree T) (k : List Char) (v w : T)
    (h : SearchByKey t k = .ok w) : (UpsertString t k v).2.shape = t.shape := by
  obtain ⟨root⟩ := t
  cases k with
  | nil => rfl
  | cons c cs =>
    cases root with
    | none => simp [SearchByKey] at h
    | some r =>
      obtain ⟨sp, pc, st, val⟩ := r
      have hp := searchPath_of_SearchByKey sp pc st val c cs w h
      simp only [UpsertString, Tree.shape, RadixTreeNode.shape,
        shape_upsertPath_of_found sp c cs v w hp]

theorem UpsertString_of_found_same [Inhabited T] (t : Tree T) (k : List Char) (v : T)
    (h : SearchByKey t k = .ok v) : (UpsertString t k v).2 = t := by
  obtain ⟨root⟩ := t
  cases k with
  | nil => rfl
  | cons c cs =>
    cases root with
    | none => simp [SearchByKey] at h
    | some r =>
      obtain ⟨sp, pc, st, val⟩ := r
      have hp := searchPath_of_SearchByKey sp pc st val c cs v h
      simp only [UpsertString, upsertPath_of_found_same sp c cs v hp]

theorem map_setValue_of_ne (l : List (List Char × Bool × T)) (k : List Char) (v : T)
    (h : ∀ x ∈ l, x.1 ≠ k) :
    l.map (fun x => if x.1 = k then (x.1, x.2.1, v) else x) = l := by
  induction l with
  | nil => rfl
  | cons y ys ih =>
    simp only [List.map_cons, if_neg (h y (by simp))]
    rw [ih (fun x hx => h x (by simp [hx]))]

mutual
/-- With distinct edge symbols that are the first symbols of the contents, a
round of the upsert loop for a key the search loop finds sets the value of the
node whose concatenation is the key and leaves every other node as it was. -/
theorem entries_upsertNode_of_found [Inhabited T] :
    ∀ (n : RadixTreeNode T) (acc q : List Char) (v w : T), (∀ m ∈ n.nodes, m.edges.Nodup) →
      (∀ m ∈ n.nodes, ∀ p ∈ m.search_path_, p.2.path_content_.head? = some p.1) →
      searchNode n q = .ok w →
      (upsertNode n q v).entries acc
        = (n.entries acc).map (fun x => if x.1 = acc ++ q then (x.1, x.2.1, v) else x)
  | .mk sp pc st val, acc, q, v, w, hN, hH, h => by
    have hself : ∀ p ∈ sp, p.2.path_content_.head? = some p.1 :=
      hH (.mk sp pc st val) (by simp [RadixTreeNode.nodes])
    have hk := matchLoop_key q pc
    have hc := matchLoop_content q pc
    rw [searchNode] at h
    rw [upsertNode]
    generalize matchLoop q pc = r at h hk hc
    obtain ⟨pre, kq, rest⟩ := r
    simp only at hk hc
    subst hk hc
    cases kq with
    | nil =>
      cases rest with
      | nil =>
        cases st with
        | false => simp at h
        | true =>
          simp only [List.append_nil, RadixTreeNode.entries, List.map_cons, if_true]
          rw [map_setValue_of_ne]
          intro x hx hx1
          obtain ⟨e, _, r, hr⟩ := pathEntries_edge sp (acc ++ pre) x hself hx
          rw [hx1] at hr
          have := congrArg List.length hr
          simp at this
      | cons x xs => simp at h
    | cons c cs =>
      cases rest with
      | nil =>
        simp only at h
        have hne : ¬ (acc ++ pre = acc ++ (pre ++ c :: cs)) := by
          intro heq
          have := congrArg List.length heq
          simp at this
        simp only [List.append_nil, RadixTreeNode.entries, List.map_cons, if_neg hne]
        rw [entries_upsertPath_of_found sp (acc ++ pre) c cs v w
          (hN (.mk sp pre st val) (by simp [RadixTreeNode.nodes]))
          (by simpa using hself)
          (fun m hm => hN m (by simp [RadixTreeNode.nodes, hm]))
          (fun m hm => hH m (by simp [RadixTreeNode.nodes, hm])) h]
        simp only [List.append_assoc]
      | cons x xs => simp at h
theorem entries_upsertPath_of_found [Inhabited T] :
    ∀ (sp : List (Char × RadixTreeNode T)) (acc : List Char) (c : Char) (cs : List Char)
      (v w : T), (sp.map Prod.fst).Nodup →
      (∀ p ∈ sp, p.2.path_content_.head? = some p.1) →
      (∀ m ∈ pathNodes sp, m.edges.Nodup) →
      (∀ m ∈ pathNodes sp, ∀ p ∈ m.search_path_, p.2.path_content_.head? = some p.1) →
      searchPath sp c cs = .ok w →
      pathEntries (upsertPath sp c cs v) acc
        = (pathEntries sp acc).map
            (fun x => if x.1 = acc ++ c :: cs then (x.1, x.2.1, v) else x)
  | [], acc, c, cs, v, w, _, _, _, _, h => by simp [searchPath] at h
  | (e, n) :: rest, acc, c, cs, v, w, hE, hS, hN, hH, h => by
    simp only [List.map_cons, List.nodup_cons] at hE
    rw [searchPath] at h
    rw [upsertPath]
    by_cases hec : e = c
    · subst hec
      rw [if_pos rfl] at h
      rw [if_pos rfl]
      simp only [pathEntries, List.map_append]
      rw [entries_upsertNode_of_found n acc (e :: cs) v w
        (fun m hm => hN m (by simp [pathNodes, hm]))
        (fun m hm => hH m (by simp [pathNodes, hm])) h]
      congr 1
      symm
      apply map_setValue_of_ne
      intro x hx hx1
      obtain ⟨e', he', r, hr⟩ := pathEntries_edge rest acc x
        (fun p hp => hS p (by simp [hp])) hx
      rw [hx1] at hr
      simp only [List.append_cancel_left_eq, List.cons.injEq] at hr
      rw [hr.1] at hE
      exact hE.1 he'
    · rw [if_neg hec] at h
      rw [if_neg hec]
      simp only [pathEntries, List.map_append]
      rw [entries_upsertPath_of_found rest acc c cs v w hE.2 (fun p hp => hS p (by simp [hp]))
        (fun m hm => hN m (by simp [pathNodes, hm]))
        (fun m hm => hH m (by simp [pathNodes, hm])) h]
      congr 1
      symm
      apply map_setValue_of_ne
      intro x hx hx1
      obtain ⟨r, hr⟩ := entries_edge n e acc x (hS (e, n) (by simp)) hx
      rw [hx1] at hr
      simp only [List.append_cancel_left_eq, List.cons.injEq] at hr
      exact hec hr.1.symm
end

/-- On a tree built from the empty tree, `UpsertString` of a key `SearchByKey`
finds sets the value of the node whose root-to-node concatenation is the key
and leaves every other node as it was. -/
theorem entries_UpsertString_of_found [Inhabited T] (ops : List (List Char × T))
    (k : List Char) (v w : T) (h : SearchByKey (upsertAll Tree.empty ops) k = .ok w) :
    (UpsertString (upsertAll Tree.empty ops) k v).2.entries
      = (upsertAll Tree.empty ops).entries.map
          (fun x => if x.1 = k then (x.1, x.2.1, v) else x) := by
  have hN := edges_nodup_upsertAll Tree.empty ops (by simp [Tree.nodes, Tree.empty])
  have hH := heads_upsertAll_empty ops
  have hroot := root_upsertAll Tree.empty ops (Or.inl rfl)
  generalize upsertAll Tree.empty ops = t at hN hH hroot h
  obtain ⟨root⟩ := t
  cases k with
  | nil => simp [SearchByKey] at h
  | cons c cs =>
    rcases hroot with hr | ⟨sp, hr⟩
    · simp only at hr
      subst hr
      simp [SearchByKey] at h
    · simp only at hr
      subst hr
      have hp := searchPath_of_SearchByKey sp [] false default c cs w h
      have hne : ¬ (([] : List Char) = c :: cs) := by simp
      simp only [UpsertString, Tree.entries, RadixTreeNode.entries, List.append_nil,
        List.map_cons, if_neg hne]
      rw [entries_upsertPath_of_found sp [] c cs v w
        (hN (.mk sp [] false default) (by simp [Tree.nodes, RadixTreeNode.nodes]))
        (hH (.mk sp [] false default) (by simp [Tree.nodes, RadixTreeNode.nodes]))
        (fun m hm => hN m (by simp [Tree.nodes, RadixTreeNode.nodes, hm]))
        (fun m hm => hH m (by simp [Tree.nodes, RadixTreeNode.nodes, hm])) hp]
      simp

/-! ## The outcome of a search is determined by the stored keys -/

mutual
/-- The search loop throws "No such key!" or the bad-initialization message only. -/
theorem searchNode_error :
    ∀ (n : RadixTreeNode T) (q : List Char) (e : RtError), searchNode n q = .error e →
      e = .noSuchKeyBang ∨ e = .badInitialization
  | .mk sp pc st val, q, e, h => by
    rw [searchNode] at h
    generalize matchLoop q pc = r at h
    obtain ⟨pre, kq, rest⟩ := r
    cases kq with
    | nil =>
      cases rest with
      | nil =>
        cases st with
        | false =>
          simp only [Bool.false_eq_true, if_false, Except.error.injEq] at h
          exact Or.inr h.symm
        | true => simp at h
      | cons x xs =>
        simp only [Except.error.injEq] at h
        exact Or.inl h.symm
    | cons c cs =>
      cases rest with
      | nil => exact searchPath_error sp c cs e h
      | cons x xs =>
        simp only [Except.error.injEq] at h
        exact Or.inl h.symm
theorem searchPath_error :
    ∀ (sp : List (Char × RadixTreeNode T)) (c : Char) (cs : List Char) (e : RtError),
      searchPath sp c cs = .error e → e = .noSuchKeyBang ∨ e = .badInitialization
  | [], c, cs, e, h => by
    simp only [searchPath, Except.error.injEq] at h
    exact Or.inl h.symm
  | (e0, n) :: rest, c, cs, e, h => by
    rw [searchPath] at h
    by_cases hec : e0 = c
    · rw [if_pos hec] at h
      exact searchNode_error n (c :: cs) e h
    · rw [if_neg hec] at h
      exact searchPath_error rest c cs e h
end

/-- The lookup of the search loop in terms of the first step search. -/
theorem searchPath_eq_firstStep (sp : List (Char × RadixTreeNode T)) (c : Char)
    (cs : List Char) :
    searchPath sp c cs
      = match firstStep sp c with
        | none => .error .noSuchKeyBang
        | some n => searchNode n (c :: cs) := by
  induction sp with
  | nil => rfl
  | cons p rest ih =>
    obtain ⟨e, n⟩ := p
    by_cases h : e = c
    · simp [firstStep, searchPath, h]
    · simp only [firstStep, searchPath, h, if_false]
      exact ih

theorem firstStep_some_mem (sp : List (Char × RadixTreeNode T)) (c : Char)
    (n : RadixTreeNode T) (h : firstStep sp c = some n) : (c, n) ∈ sp := by
  induction sp with
  | nil => simp [firstStep] at h
  | cons p rest ih =>
    obtain ⟨e, n0⟩ := p
    by_cases hec : e = c
    · simp only [firstStep, hec, if_true, Option.some.injEq] at h
      simp [hec, h]
    · simp only [firstStep, hec, if_false] at h
      simp [ih h]

mutual
/-- When every node that is not a stop has two children or more, and the edge
symbols are the first symbols of the contents, every subtree holds a key the
search loop finds. -/
theorem exists_found_node :
    ∀ (n : RadixTreeNode T),
      (∀ m ∈ n.nodes, m.is_stop_ = false → 2 ≤ m.search_path_.length) →
      (∀ m ∈ n.nodes, ∀ p ∈ m.search_path_, p.2.path_content_.head? = some p.1) →
      ∃ x v, searchNode n (n.path_content_ ++ x) = .ok v
  | .mk sp pc st val, hB, hH => by
    cases st with
    | true => exact ⟨[], val, by simp [RadixTreeNode.path_content_, searchNode_self]⟩
    | false =>
      have hlen := hB (.mk sp pc false val) (by simp [RadixTreeNode.nodes]) rfl
      have hne : sp ≠ [] := by
        rintro rfl
        simp [RadixTreeNode.search_path_] at hlen
      obtain ⟨c, cs, v, h⟩ := exists_found_path sp hne
        (hH (.mk sp pc false val) (by simp [RadixTreeNode.nodes]))
        (fun m hm => hB m (by simp [RadixTreeNode.nodes, hm]))
        (fun m hm => hH m (by simp [RadixTreeNode.nodes, hm]))
      exact ⟨c :: cs, v, by rw [RadixTreeNode.path_content_, searchNode_append]; exact h⟩
theorem exists_found_path :
    ∀ (sp : List (Char × RadixTreeNode T)), sp ≠ [] →
      (∀ p ∈ sp, p.2.path_content_.head? = some p.1) →
      (∀ m ∈ pathNodes sp, m.is_stop_ = false → 2 ≤ m.search_path_.length) →
      (∀ m ∈ pathNodes sp, ∀ p ∈ m.search_path_, p.2.path_content_.head? = some p.1) →
      ∃ c cs v, searchPath sp c cs = .ok v
  | [], h, _, _, _ => absurd rfl h
  | (e, n) :: rest, _, hS, hB, hH => by
    obtain ⟨x, v, h⟩ := exists_found_node n (fun m hm => hB m (by simp [pathNodes, hm]))
      (fun m hm => hH m (by simp [pathNodes, hm]))
    have hhead := hS (e, n) (by simp)
    cases hpc : n.path_content_ with
    | nil => simp [hpc] at hhead
    | cons y ys =>
      simp only [hpc, List.head?_cons, Option.some.injEq] at hhead
      subst hhead
      rw [hpc] at h
      exact ⟨y, ys ++ x, v, by rw [searchPath, if_pos rfl]; exact h⟩
end

/-- The same for a child, with a found key that starts with its edge symbol. -/
theorem exists_found_child (n : RadixTreeNode T) (e : Char)
    (hhead : n.path_content_.head? = some e)
    (hB : ∀ m ∈ n.nodes, m.is_stop_ = false → 2 ≤ m.search_path_.length)
    (hH : ∀ m ∈ n.nodes, ∀ p ∈ m.search_path_, p.2.path_content_.head? = some p.1) :
    ∃ t v, searchNode n (e :: t) = .ok v := by
  obtain ⟨x, v, h⟩ := exists_found_node n hB hH
  cases hpc : n.path_content_ with
  | nil => simp [hpc] at hhead
  | cons y ys =>
    simp only [hpc, List.head?_cons, Option.some.injEq] at hhead
    subst hhead
    rw [hpc] at h
    exact ⟨ys ++ x, v, h⟩

/-- A key with the content as a front part is needed for the round to succeed. -/
theorem prefix_of_searchNode_ok (sp : List (Char × RadixTreeNode T)) (pc key : List Char)
    (st : Bool) (val v : T) (h : searchNode (.mk sp pc st val) key = .ok v) : pc <+: key := by
  by_contra hp
  rw [searchNode_mismatch sp pc key st val hp] at h
  cases h

mutual
/-- A key continued by two found keys on two different symbols ends exactly at a
node: the search loop returns a value for it or throws the bad-initialization
message. -/
theorem searchNode_of_fork :
    ∀ (n : RadixTreeNode T) (r : List Char) (a b : Char) (x y : List Char) (v1 v2 : T),
      a ≠ b → searchNode n (r ++ a :: x) = .ok v1 → searchNode n (r ++ b :: y) = .ok v2 →
      (∃ v, searchNode n r = .ok v) ∨ searchNode n r = .error .badInitialization
  | .mk sp pc st val, r, a, b, x, y, v1, v2, hab, h1, h2 => by
    rcases prefix_trichotomy pc r with h | ⟨c, cs, h⟩ | h
    · subst h
      rw [searchNode_self]
      cases st with
      | true => exact Or.inl ⟨val, rfl⟩
      | false => exact Or.inr rfl
    · subst h
      simp only [List.append_assoc, List.cons_append] at h1 h2
      rw [searchNode_append] at h1 h2
      rw [searchNode_append]
      exact searchPath_of_fork sp c cs a b x y v1 v2 hab h1 h2
    · exfalso
      have hp1 := prefix_of_searchNode_ok sp pc _ st val v1 h1
      have hp2 := prefix_of_searchNode_ok sp pc _ st val v2 h2
      rcases List.prefix_or_prefix_of_prefix hp1 (List.prefix_append r (a :: x)) with hp | hp
      · exact h hp
      · obtain ⟨u, rfl⟩ := hp
        cases u with
        | nil => exact h (by simp)
        | cons z u =>
          rw [List.prefix_append_right_inj, List.cons_prefix_cons] at hp1 hp2
          exact hab (hp1.1.symm.trans hp2.1)
theorem searchPath_of_fork :
    ∀ (sp : List (Char × RadixTreeNode T)) (c : Char) (cs : List Char) (a b : Char)
      (x y : List Char) (v1 v2 : T), a ≠ b →
      searchPath sp c (cs ++ a :: x) = .ok v1 → searchPath sp c (cs ++ b :: y) = .ok v2 →
      (∃ v, searchPath sp c cs = .ok v) ∨ searchPath sp c cs = .error .badInitialization
  | [], c, cs, a, b, x, y, v1, v2, _, h1, _ => by simp [searchPath] at h1
  | (e, n) :: rest, c, cs, a, b, x, y, v1, v2, hab, h1, h2 => by
    rw [searchPath] at h1 h2
    rw [searchPath]
    by_cases hec : e = c
    · rw [if_pos hec] at h1 h2
      rw [if_pos hec]
      exact searchNode_of_fork n (c :: cs) a b x y v1 v2 hab h1 h2
    · rw [if_neg hec] at h1 h2
      rw [if_neg hec]
      exact searchPath_of_fork rest c cs a b x y v1 v2 hab h1 h2
end

mutual
/-- In a subtree that keeps the invariants of the data model, the
bad-initialization message is thrown only for a key continued by two found keys
on two different symbols. -/
theorem fork_of_searchNode_bad :
    ∀ (n : RadixTreeNode T) (q : List Char), (∀ m ∈ n.nodes, m.edges.Nodup) →
      (∀ m ∈ n.nodes, ∀ p ∈ m.search_path_, p.2.path_content_.head? = some p.1) →
      (∀ m ∈ n.nodes, m.is_stop_ = false → 2 ≤ m.search_path_.length) →
      searchNode n q = .error .badInitialization →
      ∃ a b x y v1 v2, a ≠ b ∧ searchNode n (q ++ a :: x) = .ok v1
        ∧ searchNode n (q ++ b :: y) = .ok v2
  | .mk sp pc st val, q, hN, hH, hB, h => by
    have hk := matchLoop_key q pc
    have hc := matchLoop_content q pc
    rw [searchNode] at h
    generalize matchLoop q pc = r at h hk hc
    obtain ⟨pre, kq, rest⟩ := r
    simp only at hk hc
    subst hk hc
    cases kq with
    | nil =>
      cases rest with
      | nil =>
        cases st with
        | true => simp at h
        | false =>
          simp only [List.append_nil] at hN hH hB ⊢
          have hlen := hB (.mk sp pre false val) (by simp [RadixTreeNode.nodes]) rfl
          have hE := hN (.mk sp pre false val) (by simp [RadixTreeNode.nodes])
          have hS := hH (.mk sp pre false val) (by simp [RadixTreeNode.nodes])
          simp only [RadixTreeNode.search_path_] at hlen hS
          simp only [RadixTreeNode.edges, RadixTreeNode.search_path_] at hE
          match sp, hlen, hE, hS, hN, hH, hB with
          | (e1, n1) :: (e2, n2) :: rest, _, hE, hS, hN, hH, hB =>
            have hne : e1 ≠ e2 := by
              intro heq
              simp [heq] at hE
            obtain ⟨t1, v1, h1⟩ := exists_found_child n1 e1 (hS (e1, n1) (by simp))
              (fun m hm => hB m (by simp [RadixTreeNode.nodes, pathNodes, hm]))
              (fun m hm => hH m (by simp [RadixTreeNode.nodes, pathNodes, hm]))
            obtain ⟨t2, v2, h2⟩ := exists_found_child n2 e2 (hS (e2, n2) (by simp))
              (fun m hm => hB m (by simp [RadixTreeNode.nodes, pathNodes, hm]))
              (fun m hm => hH m (by simp [RadixTreeNode.nodes, pathNodes, hm]))
            refine ⟨e1, e2, t1, t2, v1, v2, hne, ?_, ?_⟩
            · rw [searchNode_append, searchPath, if_pos rfl]
              exact h1
            · rw [searchNode_append, searchPath, if_neg hne, searchPath, if_pos rfl]
              exact h2
      | cons x xs => simp at h
    | cons c cs =>
      cases rest with
      | nil =>
        simp only [List.append_nil] at hN hH hB ⊢
        simp only at h
        obtain ⟨a, b, x, y, v1, v2, hab, h1, h2⟩ := fork_of_searchPath_bad sp c cs
          (fun m hm => hN m (by simp [RadixTreeNode.nodes, hm]))
          (fun m hm => hH m (by simp [RadixTreeNode.nodes, hm]))
          (fun m hm => hB m (by simp [RadixTreeNode.nodes, hm])) h
        refine ⟨a, b, x, y, v1, v2, hab, ?_, ?_⟩
        · simp only [List.append_assoc, List.cons_append]
          rw [searchNode_append]
          exact h1
        · simp only [List.append_assoc, List.cons_append]
          rw [searchNode_append]
          exact h2
      | cons x xs => simp at h
theorem fork_of_searchPath_bad :
    ∀ (sp : List (Char × RadixTreeNode T)) (c : Char) (cs : List Char),
      (∀ m ∈ pathNodes sp, m.edges.Nodup) →
      (∀ m ∈ pathNodes sp, ∀ p ∈ m.search_path_, p.2.path_content_.head? = some p.1) →
      (∀ m ∈ pathNodes sp, m.is_stop_ = false → 2 ≤ m.search_path_.length) →
      searchPath sp c cs = .error .badInitialization →
      ∃ a b x y v1 v2, a ≠ b ∧ searchPath sp c (cs ++ a :: x) = .ok v1
        ∧ searchPath sp c (cs ++ b :: y) = .ok v2
  | [], c, cs, _, _, _, h => by simp [searchPath] at h
  | (e, n) :: rest, c, cs, hN, hH, hB, h => by
    rw [searchPath] at h
    by_cases hec : e = c
    · rw [if_pos hec] at h
      obtain ⟨a, b, x, y, v1, v2, hab, h1, h2⟩ := fork_of_searchNode_bad n (c :: cs)
        (fun m hm => hN m (by simp [pathNodes, hm]))
        (fun m hm => hH m (by simp [pathNodes, hm]))
        (fun m hm => hB m (by simp [pathNodes, hm])) h
      refine ⟨a, b, x, y, v1, v2, hab, ?_, ?_⟩
      · rw [searchPath, if_pos hec]
        exact h1
      · rw [searchPath, if_pos hec]
        exact h2
    · rw [if_neg hec] at h
      obtain ⟨a, b, x, y, v1, v2, hab, h1, h2⟩ := fork_of_searchPath_bad rest c cs
        (fun m hm => hN m (by simp [pathNodes, hm]))
        (fun m hm => hH m (by simp [pathNodes, hm]))
        (fun m hm => hB m (by simp [pathNodes, hm])) h
      refine ⟨a, b, x, y, v1, v2, hab, ?_, ?_⟩
      · rw [searchPath, if_neg hec]
        exact h1
      · rw [searchPath, if_neg hec]
        exact h2
end

/-- A tree built from the empty tree is empty or has the root of the first
insertion, over children that keep the invariants of the data model. -/
theorem upsertAll_empty_cases [Inhabited T] (ops : List (List Char × T)) :
    (upsertAll Tree.empty ops).root_ = none
      ∨ ∃ sp, upsertAll Tree.empty ops = ⟨some (.mk sp [] false default)⟩
        ∧ (∀ p ∈ sp, p.2.path_content_.head? = some p.1)
        ∧ (∀ m ∈ pathNodes sp, m.edges.Nodup)
        ∧ (∀ m ∈ pathNodes sp, ∀ p ∈ m.search_path_, p.2.path_content_.head? = some p.1)
        ∧ (∀ m ∈ pathNodes sp, m.is_stop_ = false → 2 ≤ m.search_path_.length) := by
  have hN := edges_nodup_upsertAll Tree.empty ops (by simp [Tree.nodes, Tree.empty])
  have hH := heads_upsertAll_empty ops
  have hB := branching_upsertAll_empty ops
  have hroot := root_upsertAll Tree.empty ops (Or.inl rfl)
  generalize upsertAll Tree.empty ops = t at hN hH hB hroot
  obtain ⟨root⟩ := t
  rcases hroot with hr | ⟨sp, hr⟩
  · exact Or.inl hr
  · simp only at hr
    subst hr
    refine Or.inr ⟨sp, rfl, ?_, ?_, ?_, ?_⟩
    · exact hH (.mk sp [] false default) (by simp [Tree.nodes, RadixTreeNode.nodes])
    · exact fun m hm => hN m (by simp [Tree.nodes, RadixTreeNode.nodes, hm])
    · exact fun m hm => hH m (by simp [Tree.nodes, RadixTreeNode.nodes, hm])
    · exact fun m hm => hB m (by simpa [Tree.inner, RadixTreeNode.search_path_] using hm)

theorem SearchByKey_some (sp : List (Char × RadixTreeNode T)) (pc : List Char) (st : Bool)
    (val : T) (c : Char) (cs : List Char) :
    SearchByKey ⟨some (.mk sp pc st val)⟩ (c :: cs)
      = match firstStep sp c with
        | none => .error .noSuchKey
        | some n => searchNode n (c :: cs) := rfl

theorem SearchByKey_ok_iff (sp : List (Char × RadixTreeNode T)) (pc : List Char) (st : Bool)
    (val : T) (c : Char) (cs : List Char) (v : T) :
    SearchByKey ⟨some (.mk sp pc st val)⟩ (c :: cs) = .ok v ↔ searchPath sp c cs = .ok v := by
  rw [← toOption_eq_some, SearchByKey_root, toOption_eq_some]

theorem SearchByKey_bad_iff (sp : List (Char × RadixTreeNode T)) (pc : List Char) (st : Bool)
    (val : T) (c : Char) (cs : List Char) :
    SearchByKey ⟨some (.mk sp pc st val)⟩ (c :: cs) = .error .badInitialization
      ↔ searchPath sp c cs = .error .badInitialization := by
  rw [SearchByKey_some, searchPath_eq_firstStep]
  cases firstStep sp c with
  | none => simp
  | some n => rfl

theorem SearchByKey_miss_iff (sp : List (Char × RadixTreeNode T)) (pc : List Char) (st : Bool)
    (val : T) (c : Char) (cs : List Char) :
    SearchByKey ⟨some (.mk sp pc st val)⟩ (c :: cs) = .error .noSuchKey
      ↔ firstStep sp c = none := by
  rw [SearchByKey_some]
  cases h : firstStep sp c with
  | none => simp
  | some n =>
    simp only [reduceCtorEq, iff_false]
    intro he
    rcases searchNode_error n (c :: cs) _ he with h' | h' <;> cases h'

/-- Between two trees built from the empty tree that find the same keys with the
same values, the bad-initialization message and the first-layer "No such key"
carry over. -/
theorem SearchByKey_error_transfer [Inhabited T] (opsA opsB : List (List Char × T))
    (hfound : ∀ q, (SearchByKey (upsertAll Tree.empty opsA) q).toOption
      = (SearchByKey (upsertAll Tree.empty opsB) q).toOption)
    (hA : (upsertAll Tree.empty opsA).root_ ≠ none)
    (hB : (upsertAll Tree.empty opsB).root_ ≠ none)
    (c : Char) (cs : List Char) (e : RtError)
    (he : e = .badInitialization ∨ e = .noSuchKey)
    (h : SearchByKey (upsertAll Tree.empty opsA) (c :: cs) = .error e) :
    SearchByKey (upsertAll Tree.empty opsB) (c :: cs) = .error e := by
  rcases upsertAll_empty_cases opsA with hrA | ⟨spA, htA, hSA, hNA, hHA, hBA⟩
  · exact absurd hrA hA
  rcases upsertAll_empty_cases opsB with hrB | ⟨spB, htB, hSB, hNB, hHB, hBB⟩
  · exact absurd hrB hB
  rw [htA] at h hfound
  rw [htB] at hfound ⊢
  rcases he with rfl | rfl
  · rw [SearchByKey_bad_iff] at h ⊢
    obtain ⟨a, b, x, y, v1, v2, hab, h1, h2⟩ := fork_of_searchPath_bad spA c cs hNA hHA hBA h
    have h1' : searchPath spB c (cs ++ a :: x) = .ok v1 := by
      rw [← SearchByKey_ok_iff spB [] false default, ← toOption_eq_some, ← hfound,
        toOption_eq_some, SearchByKey_ok_iff]
      exact h1
    have h2' : searchPath spB c (cs ++ b :: y) = .ok v2 := by
      rw [← SearchByKey_ok_iff spB [] false default, ← toOption_eq_some, ← hfound,
        toOption_eq_some, SearchByKey_ok_iff]
      exact h2
    rcases searchPath_of_fork spB c cs a b x y v1 v2 hab h1' h2' with ⟨v, hv⟩ | hbad
    · exfalso
      rw [← SearchByKey_ok_iff spB [] false default, ← toOption_eq_some, ← hfound,
        toOption_eq_some, SearchByKey_ok_iff, h] at hv
      cases hv
    · exact hbad
  · rw [SearchByKey_miss_iff] at h ⊢
    cases hf : firstStep spB c with
    | none => rfl
    | some n =>
      exfalso
      have hmem := firstStep_some_mem spB c n hf
      obtain ⟨t, v, hv⟩ := exists_found_child n c (hSB (c, n) hmem)
        (fun m hm => hBB m (by
          obtain ⟨pre, post, rfl⟩ := List.append_of_mem hmem
          exact firstStep_mem _ c n hf m hm))
        (fun m hm => hHB m (firstStep_mem _ c n hf m hm))
      have hB' : SearchByKey ⟨some (.mk spB [] false default)⟩ (c :: t) = .ok v := by
        rw [SearchByKey_some, hf]
        exact hv
      rw [← toOption_eq_some, ← hfound, toOption_eq_some, SearchByKey_some, h] at hB'
      cases hB'

/-- Two non-empty trees built from the empty tree that find the same keys with
the same values give the same outcome for every search. -/
theorem SearchByKey_determined [Inhabited T] (opsA opsB : List (List Char × T))
    (hfound : ∀ q, (SearchByKey (upsertAll Tree.empty opsA) q).toOption
      = (SearchByKey (upsertAll Tree.empty opsB) q).toOption)
    (hA : (upsertAll Tree.empty opsA).root_ ≠ none)
    (hB : (upsertAll Tree.empty opsB).root_ ≠ none) (q : List Char) :
    SearchByKey (upsertAll Tree.empty opsA) q = SearchByKey (upsertAll Tree.empty opsB) q := by
  cases q with
  | nil => rfl
  | cons c cs =>
    have hq := hfound (c :: cs)
    have hAB := SearchByKey_error_transfer opsA opsB hfound hA hB c cs
    have hBA := SearchByKey_error_transfer opsB opsA (fun q => (hfound q).symm) hB hA c cs
    have clsA : ∀ e, SearchByKey (upsertAll Tree.empty opsA) (c :: cs) = .error e →
        e = .noSuchKey ∨ e = .noSuchKeyBang ∨ e = .badInitialization := by
      intro e he
      rcases upsertAll_empty_cases opsA with hr | ⟨sp, ht, _⟩
      · exact absurd hr hA
      · rw [ht, SearchByKey_some] at he
        cases hf : firstStep sp c with
        | none =>
          rw [hf] at he
          simp only [Except.error.injEq] at he
          exact Or.inl he.symm
        | some n =>
          rw [hf] at he
          exact Or.inr (searchNode_error n _ e he)
    have clsB : ∀ e, SearchByKey (upsertAll Tree.empty opsB) (c :: cs) = .error e →
        e = .noSuchKey ∨ e = .noSuchKeyBang ∨ e = .badInitialization := by
      intro e he
      rcases upsertAll_empty_cases opsB with hr | ⟨sp, ht, _⟩
      · exact absurd hr hB
      · rw [ht, SearchByKey_some] at he
        cases hf : firstStep sp c with
        | none =>
          rw [hf] at he
          simp only [Except.error.injEq] at he
          exact Or.inl he.symm
        | some n =>
          rw [hf] at he
          exact Or.inr (searchNode_error n _ e he)
    cases hra : SearchByKey (upsertAll Tree.empty opsA) (c :: cs) with
    | ok v =>
      rw [hra, toOption_ok] at hq
      exact ((toOption_eq_some _ _).1 hq.symm).symm
    | error eA =>
      cases hrb : SearchByKey (upsertAll Tree.empty opsB) (c :: cs) with
      | ok v =>
        rw [hra, hrb, toOption_ok, toOption_error] at hq
        cases hq
      | error eB =>
        rcases clsA eA hra with rfl | rfl | rfl
        · rw [hAB _ (Or.inr rfl) hra] at hrb
          exact hrb
        · rcases clsB eB hrb with rfl | rfl | rfl
          · rw [hBA _ (Or.inr rfl) hrb] at hra
            exact hra.symm
          · rfl
          · rw [hBA _ (Or.inl rfl) hrb] at hra
            exact hra.symm
        · rw [hAB _ (Or.inl rfl) hra] at hrb
          exact hrb

theorem root_UpsertString_ne_none [Inhabited T] (t : Tree T) (k : List Char) (v : T)
    (hk : k ≠ []) : (UpsertString t k v).2.root_ ≠ none := by
  obtain ⟨c, cs, rfl⟩ := List.exists_cons_of_ne_nil hk
  obtain ⟨root⟩ := t
  cases root with
  | none => simp [UpsertString]
  | some r =>
    obtain ⟨sp, pc, st, val⟩ := r
    simp [UpsertString]

theorem upsertAll_two [Inhabited T] (t : Tree T) (ops : List (List Char × T))
    (k1 k2 : List Char) (v1 v2 : T) :
    upsertAll t (ops ++ [(k1, v1), (k2, v2)])
      = (UpsertString (UpsertString (upsertAll t ops) k1 v1).2 k2 v2).2 := by
  rw [upsertAll_append]
  rfl

/-- The entries of a tree built from the empty tree have pairwise distinct
concatenations, and the stop nodes among them are what `SearchByKey` finds. -/
theorem entries_upsertAll_empty [Inhabited T] (ops : List (List Char × T)) :
    ((upsertAll Tree.empty ops).entries.map Prod.fst).Nodup
      ∧ ∀ k v, (k, true, v) ∈ (upsertAll Tree.empty ops).entries
          ↔ SearchByKey (upsertAll Tree.empty ops) k = .ok v := by
  have hN := edges_nodup_upsertAll Tree.empty ops (by simp [Tree.nodes, Tree.empty])
  have hH := heads_upsertAll_empty ops
  have hroot := root_upsertAll Tree.empty ops (Or.inl rfl)
  generalize upsertAll Tree.empty ops = t at hN hH hroot
  obtain ⟨root⟩ := t
  rcases hroot with hr | ⟨sp, hr⟩
  · simp only at hr
    subst hr
    refine ⟨by simp [Tree.entries], ?_⟩
    intro k v
    cases k <;> simp [Tree.entries, SearchByKey]
  · simp only at hr
    subst hr
    exact ⟨entries_nodup _ [] hN hH, fun k v => entry_iff_SearchByKey sp default hN hH k v⟩

/-- C19. Insertion order of distinct keys does not matter to lookups: for every
tree built from the empty tree by `UpsertString` calls, all non-empty keys
`k1 ≠ k2` and values `v1`, `v2`, the tree after `UpsertString(k1, v1)` then
`UpsertString(k2, v2)` and the tree after `UpsertString(k2, v2)` then
`UpsertString(k1, v1)` give the same `SearchByKey` outcome for every key: the
same value, or the same thrown message. -/
theorem C19_order_irrelevant [Inhabited T] (ops : List (List Char × T)) (k1 k2 : List Char)
    (v1 v2 : T) (h1 : k1 ≠ []) (h2 : k2 ≠ []) (hne : k1 ≠ k2) (q : List Char) :
    SearchByKey (UpsertString (UpsertString (upsertAll Tree.empty ops) k1 v1).2 k2 v2).2 q
      = SearchByKey (UpsertString (UpsertString (upsertAll Tree.empty ops) k2 v2).2 k1 v1).2 q := by
  rw [← upsertAll_two, ← upsertAll_two]
  apply SearchByKey_determined
  · intro q'
    rw [upsertAll_two, upsertAll_two]
    by_cases hq : q' = []
    · subst hq
      rfl
    · rw [SearchByKey_UpsertString _ k2 q' v2 h2 hq, SearchByKey_UpsertString _ k1 q' v1 h1 hq,
        SearchByKey_UpsertString _ k1 q' v1 h1 hq, SearchByKey_UpsertString _ k2 q' v2 h2 hq]
      by_cases hq1 : q' = k1
      · subst hq1
        rw [if_neg hne, if_pos rfl, if_pos rfl]
      · rw [if_neg hq1, if_neg hq1]
  · rw [upsertAll_two]
    exact root_UpsertString_ne_none _ k2 v2 h2
  · rw [upsertAll_two]
    exact root_UpsertString_ne_none _ k1 v1 h1

theorem C19_order_irrelevant_witness :
    "cat".toList ≠ [] ∧ "car".toList ≠ [] ∧ "cat".toList ≠ "car".toList
      ∧ SearchByKey (UpsertString (UpsertString (upsertAll Tree.empty [("dog".toList, 0)])
          "cat".toList 1).2 "car".toList 2).2 "ca".toList
        = SearchByKey (UpsertString (UpsertString (upsertAll Tree.empty [("dog".toList, 0)])
          "car".toList 2).2 "cat".toList 1).2 "ca".toList :=
  ⟨by decide, by decide, by decide,
    C19_order_irrelevant [("dog".toList, 0)] "cat".toList "car".toList 1 2 (by decide)
      (by decide) (by decide) "ca".toList⟩

/-- C20. Pure update touches one field only: for every tree built from the empty
tree by `UpsertString` calls and every key `k` stored in it (`SearchByKey(k)`
returns some `w`), `UpsertString(k, v)` completes and leaves the shape of the
tree, every `path_content_` and `is_stop_` and the order of every
`search_path_` unchanged; the nodes have pairwise distinct root-to-node
concatenations, the one with concatenation `k` is a stop holding `w`, its value
becomes `v` and every other node keeps its value; and a second
`UpsertString(k, v)` yields the same tree as the first. -/
theorem C20_pure_update [Inhabited T] (ops : List (List Char × T)) (k : List Char) (v w : T)
    (h : SearchByKey (upsertAll Tree.empty ops) k = .ok w) :
    (UpsertString (upsertAll Tree.empty ops) k v).1 = .ok ()
      ∧ (UpsertString (upsertAll Tree.empty ops) k v).2.shape = (upsertAll Tree.empty ops).shape
      ∧ ((upsertAll Tree.empty ops).entries.map Prod.fst).Nodup
      ∧ (k, true, w) ∈ (upsertAll Tree.empty ops).entries
      ∧ (UpsertString (upsertAll Tree.empty ops) k v).2.entries
        = (upsertAll Tree.empty ops).entries.map
            (fun x => if x.1 = k then (x.1, x.2.1, v) else x)
      ∧ (UpsertString (UpsertString (upsertAll Tree.empty ops) k v).2 k v).2
        = (UpsertString (upsertAll Tree.empty ops) k v).2 := by
  have hk : k ≠ [] := by
    rintro rfl
    rw [SearchByKey_nil] at h
    cases h
  refine ⟨?_, shape_UpsertString_of_found _ k v w h, (entries_upsertAll_empty ops).1,
    ((entries_upsertAll_empty ops).2 k w).2 h, entries_UpsertString_of_found ops k v w h,
    UpsertString_of_found_same _ k v (SearchByKey_UpsertString_self _ k v hk)⟩
  obtain ⟨c, cs, rfl⟩ := List.exists_cons_of_ne_nil hk
  generalize upsertAll Tree.empty ops = t
  obtain ⟨root⟩ := t
  cases root with
  | none => rfl
  | some r =>
    obtain ⟨sp, pc, st, val⟩ := r
    rfl

theorem C20_pure_update_witness :
    SearchByKey (upsertAll Tree.empty [("cat".toList, 1), ("car".toList, 2)]) "cat".toList
        = .ok 1
      ∧ (UpsertString (upsertAll Tree.empty [("cat".toList, 1), ("car".toList, 2)])
          "cat".toList 5).2.entries
        = (upsertAll Tree.empty [("cat".toList, 1), ("car".toList, 2)]).entries.map
            (fun x => if x.1 = "cat".toList then (x.1, x.2.1, 5) else x) :=
  ⟨rfl, (C20_pure_update [("cat".toList, 1), ("car".toList, 2)] "cat".toList 5 1 rfl).2.2.2.2.1⟩

theorem C11_key_set_witness :
    (∀ op ∈ [("cat".toList, 1), ("car".toList, 2), ("cat".toList, 3)], op.1 ≠ [])
      ∧ (upsertAll Tree.empty
          [("cat".toList, 1), ("car".toList, 2), ("cat".toList, 3)]).stopCount
        = ([("cat".toList, 1), ("car".toList, 2), ("cat".toList, 3)].map Prod.fst).dedup.length :=
  ⟨by decide, (C11_key_set [("cat".toList, 1), ("car".toList, 2), ("cat".toList, 3)]
    (by decide)).2.2⟩

theorem C12_segment_edge_consistency_witness :
    RadixTreeNode.mk [('t', .mk [] ['t'] true 1), ('r', .mk [] ['r'] true 2)] ['c', 'a'] false 0
        ∈ (upsertAll Tree.empty [("car".toList, 2), ("cat".toList, 1)]).inner
      ∧ (RadixTreeNode.mk [('t', .mk [] ['t'] true 1), ('r', .mk [] ['r'] true 2)]
          ['c', 'a'] false 0).path_content_ ≠ []
      ∧ RadixTreeNode.mk [('t', .mk [] ['t'] true 1), ('r', .mk [] ['r'] true 2)] ['c', 'a']
          false 0 ∈ (upsertAll Tree.empty [("car".toList, 2), ("cat".toList, 1)]).nodes
      ∧ ('t', RadixTreeNode.mk [] ['t'] true 1)
        ∈ (RadixTreeNode.mk [('t', .mk [] ['t'] true 1), ('r', .mk [] ['r'] true 2)]
            ['c', 'a'] false 0).search_path_
      ∧ (RadixTreeNode.mk [] ['t'] true 1).path_content_.head? = some 't' :=
  ⟨List.mem_cons_self _ _,
    (C12_segment_edge_consistency [("car".toList, 2), ("cat".toList, 1)]).1 _
      (List.mem_cons_self _ _),
    List.mem_cons_of_mem _ (List.mem_cons_self _ _),
    List.mem_cons_self _ _,
    (C12_segment_edge_consistency [("car".toList, 2), ("cat".toList, 1)]).2 _
      (List.mem_cons_of_mem _ (List.mem_cons_self _ _)) ('t', .mk [] ['t'] true 1)
      (List.mem_cons_self _ _)⟩

theorem C13_compression_witness :
    RadixTreeNode.mk [('t', .mk [] ['t'] true 1), ('r', .mk [] ['r'] true 2)] ['c', 'a'] false 0
        ∈ (upsertAll Tree.empty [("car".toList, 2), ("cat".toList, 1)]).inner
      ∧ (RadixTreeNode.mk [('t', .mk [] ['t'] true 1), ('r', .mk [] ['r'] true 2)]
          ['c', 'a'] false 0).is_stop_ = false
      ∧ 2 ≤ (RadixTreeNode.mk [('t', .mk [] ['t'] true 1), ('r', .mk [] ['r'] true 2)]
          ['c', 'a'] false 0).search_path_.length :=
  ⟨List.mem_cons_self _ _, rfl,
    C13_compression [("car".toList, 2), ("cat".toList, 1)] _ (List.mem_cons_self _ _) rfl⟩

theorem C18_branch_value_default_witness :
    RadixTreeNode.mk [('t', .mk [] ['t'] true 1), ('r', .mk [] ['r'] true 2)] ['c', 'a'] false 0
        ∈ (upsertAll Tree.empty [("car".toList, 2), ("cat".toList, 1)]).nodes
      ∧ (RadixTreeNode.mk [('t', .mk [] ['t'] true 1), ('r', .mk [] ['r'] true 2)]
          ['c', 'a'] false 0).is_stop_ = false
      ∧ (RadixTreeNode.mk [('t', .mk [] ['t'] true 1), ('r', .mk [] ['r'] true 2)]
          ['c', 'a'] false 0).value_ = default :=
  ⟨List.mem_cons_of_mem _ (List.mem_cons_self _ _), rfl,
    C18_branch_value_default [("car".toList, 2), ("cat".toList, 1)] _
      (List.mem_cons_of_mem _ (List.mem_cons_self _ _)) rfl⟩

end RadixTree
